import Mathlib

set_option maxHeartbeats 1000000

/-
Verification of the reconciliation engine of sftpclone.py.

The engine synchronizes a local directory tree onto a remote tree reachable
through an SFTP handle.  We embed the local and remote trees as inductive
types, the remote operations as an explicit trace, and the two passes
(check_for_deletion and check_for_upload_create, source lines 208-238 and
258-378) as executable functions returning the trace of remote operations
together with the resulting remote tree.  Paths are lists of name components
relative to the synchronized roots; the absolute string forms used by the
source for exclusion checks and symlink rewriting are rebuilt with a model
of os.path.join.
-/

/-- File type as classified by the stat format bits S_IFMT (the source
compares S_IFMT values directly, sftpclone.py line 185). -/
inductive FType where
  | dir
  | lnk
  | reg
  | fifo
  | sock
  | blk
  | chr
deriving DecidableEq

/-- The four-way top-level classification used by the specification text
(directory / symlink / regular / other). -/
inductive Top4 where
  | dir
  | lnk
  | reg
  | other
deriving DecidableEq

def FType.top4 : FType → Top4
  | .dir => .dir
  | .lnk => .lnk
  | .reg => .reg
  | _ => .other

/-- Node kinds other than directory, symlink and regular file (devices,
sockets, FIFOs); they are distinguished by S_IFMT. -/
inductive OtherKind where
  | fifo
  | sock
  | blk
  | chr
deriving DecidableEq

def OtherKind.ftype : OtherKind → FType
  | .fifo => .fifo
  | .sock => .sock
  | .blk => .blk
  | .chr => .chr

/-- Local modification time: the floating point st_mtime decomposed as
sec + nsec / 10^9 with 0 ≤ nsec < 10^9. -/
structure Mtime where
  sec : Int
  nsec : Nat
deriving DecidableEq

/-- Python int() truncation toward zero applied to sec + nsec / 10^9
(sftpclone.py line 159 compares int(l_st.st_mtime) to the remote mtime). -/
def Mtime.toInt (t : Mtime) : Int :=
  if 0 ≤ t.sec ∨ t.nsec = 0 then t.sec else t.sec + 1

/-- The slice of a local lstat result consumed by _match_modes
(permission bits, owner uid and gid; sftpclone.py lines 162-168). -/
structure LMeta where
  mode : Nat
  uid : Nat
  gid : Nat
deriving DecidableEq

/-- A node of the local tree as seen through os.lstat, os.listdir and
os.readlink.  For a symlink, target is the raw os.readlink string and
resolved is the value of os.path.realpath applied to that target; realpath
consults the surrounding filesystem, so the model records its result on the
node itself (sftpclone.py lines 293-294). -/
inductive LNode where
  | dir (meta : LMeta) (children : List (String × LNode))
  | symlink (target : String) (resolved : String)
  | reg (meta : LMeta) (size : Nat) (mtime : Mtime)
  | other (kind : OtherKind)

/-- A node of the remote tree as seen through the SFTP handle.  Remote
metadata that never feeds back into a decision of the engine (permission
bits, times on directories) is not tracked; for regular files the size and
the whole-second mtime stored by the remote are tracked because
_file_need_upload consults them. -/
inductive RNode where
  | dir (children : List (String × RNode))
  | symlink (target : String)
  | reg (size : Nat) (mtime : Int)
  | other (kind : OtherKind)

def LNode.ftype : LNode → FType
  | .dir _ _ => .dir
  | .symlink _ _ => .lnk
  | .reg _ _ _ => .reg
  | .other k => k.ftype

def RNode.ftype : RNode → FType
  | .dir _ => .dir
  | .symlink _ => .lnk
  | .reg _ _ => .reg
  | .other k => k.ftype

/-- First association for a name in a directory listing.  Real directory
listings hold each name once. -/
def lookupName {α : Type} : List (String × α) → String → Option α
  | [], _ => none
  | (m, v) :: rest, n => if m = n then some v else lookupName rest n

/-- Replace the first entry called n, or append a new one: the effect of a
remote create or overwrite at that name. -/
def setEntry {α : Type} : List (String × α) → String → α → List (String × α)
  | [], n, v => [(n, v)]
  | (m, w) :: rest, n, v =>
    if m = n then (n, v) :: rest else (m, w) :: setEntry rest n v

/-- Look a node up in the local tree by a relative component path,
descending through directories.  The engine only queries paths whose
intermediate components it has already seen to be local directories, so
descending through directory children models os.path.lexists and os.lstat
faithfully on every path the engine actually queries. -/
def findPath (lcs : List (String × LNode)) : List String → Option LNode
  | [] => none
  | [n] => lookupName lcs n
  | n :: rest =>
    match lookupName lcs n with
    | some (LNode.dir _ cs) => findPath cs rest
    | _ => none

/-- Look a node up in the remote tree by a relative component path. -/
def nodeAt (rcs : List (String × RNode)) : List String → Option RNode
  | [] => none
  | [n] => lookupName rcs n
  | n :: rest =>
    match lookupName rcs n with
    | some (RNode.dir cs) => nodeAt cs rest
    | _ => none

/-- Descend below a single remote node by a relative component path. -/
def nodeUnder (c : RNode) : List String → Option RNode
  | [] => some c
  | n :: rest =>
    match c with
    | RNode.dir cs =>
      match lookupName cs n with
      | some c2 => nodeUnder c2 rest
      | none => none
    | _ => none

/-- Children of the local directory at a relative path ([] is the root). -/
def subAt (lcs : List (String × LNode)) : List String → Option (List (String × LNode))
  | [] => some lcs
  | n :: rest =>
    match lookupName lcs n with
    | some (LNode.dir _ cs) => subAt cs rest
    | _ => none

/-- Python str.startswith on whole strings (stated on the character lists,
which the kernel can evaluate). -/
def strStartsWith (s pre : String) : Bool :=
  List.isPrefixOf pre.data s.data

/-- Python str.endswith on whole strings. -/
def strEndsWith (s suf : String) : Bool :=
  List.isSuffixOf suf.data s.data

/-- Python slicing s[n:] by character count. -/
def strDrop (s : String) (n : Nat) : String :=
  String.mk (s.data.drop n)

/-- os.path.join on two components. -/
def pyJoin (a b : String) : String :=
  if strStartsWith b ("/") then b
  else if a = ("") then b
  else if strEndsWith a ("/") then a ++ b
  else a ++ ("/") ++ b

/-- Chained os.path.join of a root with the components of a relative path,
as built by join(self.local_path, relative_path, f) along the recursion
(sftpclone.py line 265). -/
def localAbs (root : String) (p : List String) : String :=
  p.foldl pyJoin root

/-- os.path.commonprefix on character lists (character-wise longest common
prefix, as computed by the Python standard library). -/
def commonPrefixChars : List Char → List Char → List Char
  | a :: as, b :: bs => if a = b then a :: commonPrefixChars as bs else []
  | _, _ => []

def commonPrefixStr (s t : String) : String :=
  String.mk (commonPrefixChars s.data t.data)

/-- One remote operation issued over the SFTP handle.  Paths are component
lists relative to the remote root.  symlinkFailed records a symlink call
attempted at an occupied non-symlink path; the resulting OSError is logged
and swallowed by the source (lines 253-256), so it changes nothing. -/
inductive ROp where
  | rmdir (p : List String)
  | remove (p : List String)
  | mkdir (p : List String)
  | put (p : List String)
  | symlinkTo (target : String) (p : List String)
  | symlinkFailed (target : String) (p : List String)
  | chmod (p : List String) (mode : Nat)
  | utime (p : List String)
  | chown (p : List String) (uid : Nat) (gid : Nat)
deriving DecidableEq

def ROp.path : ROp → List String
  | .rmdir p => p
  | .remove p => p
  | .mkdir p => p
  | .put p => p
  | .symlinkTo _ p => p
  | .symlinkFailed _ p => p
  | .chmod p _ => p
  | .utime p => p
  | .chown p _ _ => p

/-- Operations that create, upload or delete a remote node (as opposed to
the metadata calls chmod, utime, chown). -/
def ROp.isChange : ROp → Bool
  | .chmod _ _ => false
  | .utime _ => false
  | .chown _ _ _ => false
  | _ => true

/-- Transcription of SFTPClone._file_need_upload (sftpclone.py lines
157-160): upload when the sizes differ or when the local mtime truncated to
whole seconds differs from the remote whole-second mtime. -/
def _file_need_upload (lsize : Nat) (lmtime : Mtime) (rsize : Nat) (rmtime : Int) : Bool :=
  if lsize ≠ rsize ∨ Mtime.toInt lmtime ≠ rmtime then true else false

/-- Transcription of SFTPClone._must_be_deleted (sftpclone.py lines
175-188): delete when no local node exists at the path (os.path.lexists,
which is true also for a broken local symlink, i.e. whenever the lookup
succeeds) or when the S_IFMT type of the local node differs from the remote
type. -/
def _must_be_deleted (lopt : Option LNode) (rt : FType) : Bool :=
  match lopt with
  | none => true
  | some l => if LNode.ftype l = rt then false else true

mutual

/-- Transcription of SFTPClone.remote_delete (sftpclone.py lines 190-207):
a directory has its listed content deleted recursively and is then removed
with rmdir; any other node is removed with remove.  The source swallows a
FileNotFoundError from remove; on a consistent snapshot the node exists, so
the call succeeds. -/
def remote_delete (p : List String) : RNode → List ROp
  | RNode.dir cs => remote_delete_children p cs ++ [ROp.rmdir p]
  | _ => [ROp.remove p]

def remote_delete_children (p : List String) : List (String × RNode) → List ROp
  | [] => []
  | (n, c) :: rest => remote_delete (p ++ [n]) c ++ remote_delete_children p rest

end

mutual

/-- Transcription of SFTPClone.check_for_deletion (sftpclone.py lines
208-238), walking a snapshot of the remote tree: every listed entry is
handled by check_for_deletion_entry and the results are concatenated.
Returns the operation trace and the surviving remote children. -/
def check_for_deletion (lcs : List (String × LNode)) (rel : List String) :
    List (String × RNode) → List ROp × List (String × RNode)
  | [] => ([], [])
  | (name, child) :: rest =>
    let step := check_for_deletion_entry lcs rel name child
    let tail := check_for_deletion lcs rel rest
    (step.1 ++ tail.1, step.2 ++ tail.2)

/-- The per-entry body of the check_for_deletion loop (sftpclone.py lines
220-238).  The local counterpart is looked up; a remote symlink (lstat of
the entry, line 228) is deleted or kept without ever recursing into it; any
other entry is deleted when _must_be_deleted holds, and a kept directory is
recursed into.  On a consistent snapshot the attributes from listdir_attr
and from lstat agree, so both carry the ftype of the entry. -/
def check_for_deletion_entry (lcs : List (String × LNode)) (rel : List String)
    (name : String) (child : RNode) : List ROp × List (String × RNode) :=
  let lopt := findPath lcs (rel ++ [name])
  if RNode.ftype child = FType.lnk then
    if _must_be_deleted lopt (RNode.ftype child) then
      (remote_delete (rel ++ [name]) child, [])
    else ([], [(name, child)])
  else if _must_be_deleted lopt (RNode.ftype child) then
    (remote_delete (rel ++ [name]) child, [])
  else
    match child with
    | RNode.dir cs =>
      let inner := check_for_deletion lcs (rel ++ [name]) cs
      (inner.1, [(name, RNode.dir inner.2)])
    | c => ([], [(name, c)])

end

/-- Destination of the remote symlink to be written for a local symlink, or
none when no write at all is performed.  Transcription of sftpclone.py
lines 296-309 and 344-354: the raw link is absolute when it starts with a
slash; it points inside the shared tree when os.path.commonprefix of its
realpath and the root with a trailing slash equals the latter; an absolute
link inside the tree is rewritten under the remote root only when the
fix-symlinks policy is on and is otherwise left entirely alone; every other
link is written verbatim. -/
def symlink_destination (fix : Bool) (local_path remote_path : String)
    (local_link absolute_local_link : String) : Option String :=
  let trailing_local_path := pyJoin local_path ("")
  if strStartsWith local_link ("/") ∧
      commonPrefixStr absolute_local_link trailing_local_path = trailing_local_path then
    if fix then
      some (pyJoin remote_path
        (strDrop absolute_local_link trailing_local_path.data.length))
    else none
  else some local_link

/-- Transcription of SFTPClone.create_update_symlink (sftpclone.py lines
240-256) acting on the remote node currently at the path: an existing
remote symlink with a different target is removed and re-created, an equal
one is left alone, an absent node leads to a fresh symlink, and a present
non-symlink node makes readlink raise IOError so that the plain symlink
call is attempted, fails on the occupied path, and the OSError is logged
and swallowed. -/
def create_update_symlink (link_destination : String) (p : List String)
    (cur : Option RNode) : List ROp × Option RNode :=
  match cur with
  | some (RNode.symlink t) =>
    if link_destination ≠ t then
      ([ROp.remove p, ROp.symlinkTo link_destination p], some (RNode.symlink link_destination))
    else ([], some (RNode.symlink t))
  | some node => ([ROp.symlinkFailed link_destination p], some node)
  | none => ([ROp.symlinkTo link_destination p], some (RNode.symlink link_destination))

/-- The trace of SFTPClone._match_modes (sftpclone.py lines 162-168):
chmod, utime, and chown when the acting identity is privileged. -/
def _match_modes (ch : Bool) (p : List String) (meta : LMeta) : List ROp :=
  [ROp.chmod p meta.mode, ROp.utime p] ++
    (if ch then [ROp.chown p meta.uid meta.gid] else [])

mutual

/-- Transcription of SFTPClone.node_check_for_upload_create (sftpclone.py
lines 258-368) for the local node l named f under the relative path rel,
acting on the remote children rcs of the directory at rel.  An excluded
node is skipped entirely.  A local directory is created remotely when the
remote stat probe fails, always has its modes matched, and is recursed
into; a remote non-directory node at a directory path makes the recursion
issue remote calls that fail uncaught (for example mkdir below a file), so
that situation is modelled as an aborting error; it cannot arise after the
deletion pass, which removes type-mismatched nodes.  A local symlink is
handed to create_update_symlink unless the policy yields no destination.  A
local regular file is uploaded when the remote lstat probe fails (ENOENT)
or when _file_need_upload holds; after an upload the remote file stores the
local size and the local mtime truncated to whole seconds, and the modes
are matched.  A remote non-regular node at a regular path would have its
lstat attributes compared and be overwritten, which likewise cannot arise
after the deletion pass; it is modelled as the upload the source attempts.
Any other local kind is skipped with a warning. -/
def node_check_for_upload_create (fix ch : Bool) (excl : List String)
    (local_path remote_path : String) (rel : List String) (f : String)
    (l : LNode) (rcs : List (String × RNode)) :
    Except Unit (List ROp × List (String × RNode)) :=
  if localAbs local_path (rel ++ [f]) ∈ excl then Except.ok ([], rcs)
  else
    match l with
    | LNode.dir meta lcs =>
      match lookupName rcs f with
      | some (RNode.dir rcs2) =>
        match check_for_upload_create fix ch excl local_path remote_path (rel ++ [f]) lcs rcs2 with
        | Except.ok (ops, rcs3) =>
          Except.ok (_match_modes ch (rel ++ [f]) meta ++ ops,
            setEntry rcs f (RNode.dir rcs3))
        | Except.error e => Except.error e
      | some _ => Except.error ()
      | none =>
        match check_for_upload_create fix ch excl local_path remote_path (rel ++ [f]) lcs [] with
        | Except.ok (ops, rcs3) =>
          Except.ok (ROp.mkdir (rel ++ [f]) :: (_match_modes ch (rel ++ [f]) meta ++ ops),
            setEntry rcs f (RNode.dir rcs3))
        | Except.error e => Except.error e
    | LNode.symlink raw resolved =>
      match symlink_destination fix local_path remote_path raw resolved with
      | none => Except.ok ([], rcs)
      | some dest =>
        let res := create_update_symlink dest (rel ++ [f]) (lookupName rcs f)
        Except.ok (res.1,
          match res.2 with
          | some nn => setEntry rcs f nn
          | none => rcs)
    | LNode.reg meta size mtime =>
      match lookupName rcs f with
      | some (RNode.reg rs rm) =>
        if _file_need_upload size mtime rs rm then
          Except.ok (ROp.put (rel ++ [f]) :: _match_modes ch (rel ++ [f]) meta,
            setEntry rcs f (RNode.reg size mtime.toInt))
        else Except.ok ([], rcs)
      | some _ =>
        Except.ok (ROp.put (rel ++ [f]) :: _match_modes ch (rel ++ [f]) meta,
          setEntry rcs f (RNode.reg size mtime.toInt))
      | none =>
        Except.ok (ROp.put (rel ++ [f]) :: _match_modes ch (rel ++ [f]) meta,
          setEntry rcs f (RNode.reg size mtime.toInt))
    | LNode.other _ => Except.ok ([], rcs)

/-- Transcription of SFTPClone.check_for_upload_create (sftpclone.py lines
370-378): list the local directory at rel and run the per-node check on
each entry in order, threading the remote state. -/
def check_for_upload_create (fix ch : Bool) (excl : List String)
    (local_path remote_path : String) (rel : List String)
    (lcs : List (String × LNode)) (rcs : List (String × RNode)) :
    Except Unit (List ROp × List (String × RNode)) :=
  match lcs with
  | [] => Except.ok ([], rcs)
  | (f, l) :: rest =>
    match node_check_for_upload_create fix ch excl local_path remote_path rel f l rcs with
    | Except.ok (ops1, rcs1) =>
      match check_for_upload_create fix ch excl local_path remote_path rel rest rcs1 with
      | Except.ok (ops2, rcs2) => Except.ok (ops1 ++ ops2, rcs2)
      | Except.error e => Except.error e
    | Except.error e => Except.error e

end

/-- Transcription of SFTPClone.run (sftpclone.py lines 380-388): the
deletion pass over the whole remote tree, then the creation pass over the
whole local tree.  The deletion pass opens with listdir_attr on the remote
root (line 220); the listing argument is its outcome: none when no listable
directory exists at the remote root path, in which case the IOError
propagates and the run aborts before any remote operation. -/
def run (fix ch : Bool) (excl : List String) (local_path remote_path : String)
    (lcs : List (String × LNode)) (listing : Option (List (String × RNode))) :
    Except Unit (List ROp × List (String × RNode)) :=
  match listing with
  | none => Except.error ()
  | some rcs =>
    let del := check_for_deletion lcs [] rcs
    match check_for_upload_create fix ch excl local_path remote_path [] lcs del.2 with
    | Except.ok (cops, rcs2) => Except.ok (del.1 ++ cops, rcs2)
    | Except.error e => Except.error e

/-! Basic lemmas about the helpers. -/

theorem commonPrefixChars_eq_iff (bs : List Char) :
    ∀ as : List Char, commonPrefixChars as bs = bs ↔ bs <+: as := by
  induction bs with
  | nil =>
    intro as
    constructor
    · intro _; exact ⟨as, rfl⟩
    · intro _; cases as <;> rfl
  | cons b bs2 ih =>
    intro as
    cases as with
    | nil =>
      simp only [commonPrefixChars]
      constructor
      · intro h; exact absurd h (by simp)
      · intro h; exact absurd h (by simp)
    | cons a as2 =>
      simp only [commonPrefixChars]
      by_cases hab : a = b
      · subst hab
        rw [if_pos rfl]
        simp only [List.cons.injEq, List.cons_prefix_cons, true_and]
        exact ih as2
      · simp only [if_neg hab, List.cons_prefix_cons]
        constructor
        · intro h; exact absurd h (by simp)
        · intro h; exact absurd h.1 (fun hba => hab hba.symm)

theorem commonPrefixStr_eq_iff (s t : String) :
    commonPrefixStr s t = t ↔ t.data <+: s.data := by
  unfold commonPrefixStr
  constructor
  · intro h
    have : (String.mk (commonPrefixChars s.data t.data)).data = t.data := by rw [h]
    exact (commonPrefixChars_eq_iff t.data s.data).1 this
  · intro h
    have := (commonPrefixChars_eq_iff t.data s.data).2 h
    calc String.mk (commonPrefixChars s.data t.data) = String.mk t.data := by rw [this]
    _ = t := rfl

theorem file_need_upload_iff (s : Nat) (t : Mtime) (rs : Nat) (rm : Int) :
    _file_need_upload s t rs rm = true ↔ (s ≠ rs ∨ Mtime.toInt t ≠ rm) := by
  unfold _file_need_upload
  by_cases h : s ≠ rs ∨ Mtime.toInt t ≠ rm
  · simp [h]
  · simp [h]

/-! Claim C2: upload decision for regular files. -/

/-- C2: for a local regular file visited by the creation pass, if no remote
node exists at the target path the file is uploaded; if a remote regular
file exists, the file is uploaded exactly when the local size differs from
the remote size or the local mtime truncated to whole seconds differs from
the remote mtime, and otherwise nothing is done. -/
theorem claim_C2 (fix ch : Bool) (excl : List String) (lp rp : String)
    (rel : List String) (f : String) (meta : LMeta) (s : Nat) (t : Mtime)
    (rcs : List (String × RNode))
    (hex : localAbs lp (rel ++ [f]) ∉ excl) :
    (lookupName rcs f = none →
      node_check_for_upload_create fix ch excl lp rp rel f (LNode.reg meta s t) rcs =
        Except.ok (ROp.put (rel ++ [f]) :: _match_modes ch (rel ++ [f]) meta,
          setEntry rcs f (RNode.reg s t.toInt)))
    ∧ (∀ rs rm, lookupName rcs f = some (RNode.reg rs rm) →
        ((s ≠ rs ∨ Mtime.toInt t ≠ rm) →
          node_check_for_upload_create fix ch excl lp rp rel f (LNode.reg meta s t) rcs =
            Except.ok (ROp.put (rel ++ [f]) :: _match_modes ch (rel ++ [f]) meta,
              setEntry rcs f (RNode.reg s t.toInt)))
        ∧ (s = rs → Mtime.toInt t = rm →
          node_check_for_upload_create fix ch excl lp rp rel f (LNode.reg meta s t) rcs =
            Except.ok ([], rcs))) := by
  constructor
  · intro hlk
    rw [node_check_for_upload_create, if_neg hex, hlk]
  · intro rs rm hlk
    constructor
    · intro hdiff
      have hb : _file_need_upload s t rs rm = true :=
        (file_need_upload_iff s t rs rm).2 hdiff
      rw [node_check_for_upload_create, if_neg hex, hlk]
      simp only [hb, if_true]
    · intro hs hm
      have hb : _file_need_upload s t rs rm = false := by
        rw [Bool.eq_false_iff]
        intro hb
        rcases (file_need_upload_iff s t rs rm).1 hb with h | h
        · exact h hs
        · exact h hm
      rw [node_check_for_upload_create, if_neg hex, hlk]
      simp only [hb, Bool.false_eq_true, if_false]

theorem claim_C2_witness :
    node_check_for_upload_create false false [] ("/l") ("/r") [] ("f")
        (LNode.reg ⟨420, 0, 0⟩ 100 ⟨1000, 0⟩) [] =
      Except.ok ([ROp.put (["f"]), ROp.chmod (["f"]) 420, ROp.utime (["f"])],
        [(("f"), RNode.reg 100 1000)]) :=
  (claim_C2 false false [] ("/l") ("/r") [] ("f") ⟨420, 0, 0⟩ 100 ⟨1000, 0⟩ []
    (by decide)).1 rfl

/-! Claim C3: symlink destinations. -/

/-- C3: for a local symlink, an absolute raw target resolving inside the
local root with the fix-symlinks policy on yields the remote root joined
with the root-relative remainder of the resolved target; an absolute raw
target resolving outside the root, or a relative raw target, is passed
verbatim; and the destination handed to create_update_symlink is what ends
up as the remote symlink target whenever the path is empty or holds a
remote symlink. -/
theorem claim_C3 (lp rp raw res : String) :
    (strStartsWith raw ("/") = true → (pyJoin lp ("")).data <+: res.data →
      symlink_destination true lp rp raw res =
        some (pyJoin rp (strDrop res (pyJoin lp ("")).data.length)))
    ∧ (strStartsWith raw ("/") = true → ¬(pyJoin lp ("")).data <+: res.data →
        ∀ fix, symlink_destination fix lp rp raw res = some raw)
    ∧ (strStartsWith raw ("/") = false →
        ∀ fix, symlink_destination fix lp rp raw res = some raw)
    ∧ (∀ d p, (create_update_symlink d p none).2 = some (RNode.symlink d)
        ∧ ∀ t, (create_update_symlink d p (some (RNode.symlink t))).2 =
            some (RNode.symlink d)) := by
  refine ⟨?_, ?_, ?_, ?_⟩
  · intro habs hin
    unfold symlink_destination
    rw [if_pos ⟨habs, (commonPrefixStr_eq_iff res (pyJoin lp (""))).2 hin⟩, if_pos rfl]
  · intro habs hout fix
    unfold symlink_destination
    rw [if_neg]
    intro hand
    exact hout ((commonPrefixStr_eq_iff res (pyJoin lp (""))).1 hand.2)
  · intro hrel fix
    unfold symlink_destination
    rw [if_neg]
    intro hand
    rw [hand.1] at hrel
    exact Bool.noConfusion hrel
  · intro d p
    constructor
    · rfl
    · intro t
      show (if d ≠ t then
          ([ROp.remove p, ROp.symlinkTo d p], some (RNode.symlink d))
        else ([], some (RNode.symlink t))).2 = some (RNode.symlink d)
      by_cases h : d ≠ t
      · rw [if_pos h]
      · rw [if_neg h]
        push_neg at h
        rw [h]

theorem claim_C3_witness :
    strStartsWith ("/a/b/c") ("/") = true ∧
    (pyJoin ("/a") ("")).data <+: ("/a/b/c" : String).data ∧
    symlink_destination true ("/a") ("/r") ("/a/b/c") ("/a/b/c") =
      some (pyJoin ("/r") (strDrop ("/a/b/c") (pyJoin ("/a") ("")).data.length)) :=
  ⟨by decide, ⟨("b/c" : String).data, by decide⟩,
    (claim_C3 ("/a") ("/r") ("/a/b/c") ("/a/b/c")).1 (by decide)
      ⟨("b/c" : String).data, by decide⟩⟩

/-! Claim C4: absolute in-tree symlink with the fix policy off. -/

/-- C4: for a local symlink whose raw target is absolute and resolves
inside the local root, with the fix-symlinks policy off the creation pass
performs no remote write at all and leaves the remote children untouched,
whatever currently exists at that path (including nothing). -/
theorem claim_C4 (ch : Bool) (excl : List String) (lp rp : String)
    (rel : List String) (f : String) (raw res : String)
    (rcs : List (String × RNode))
    (habs : strStartsWith raw ("/") = true)
    (hin : (pyJoin lp ("")).data <+: res.data) :
    node_check_for_upload_create false ch excl lp rp rel f
      (LNode.symlink raw res) rcs = Except.ok ([], rcs) := by
  rw [node_check_for_upload_create]
  by_cases hex : localAbs lp (rel ++ [f]) ∈ excl
  · rw [if_pos hex]
  · rw [if_neg hex]
    have hdest : symlink_destination false lp rp raw res = none := by
      unfold symlink_destination
      rw [if_pos ⟨habs, (commonPrefixStr_eq_iff res (pyJoin lp (""))).2 hin⟩]
      rfl
    rw [hdest]

theorem claim_C4_witness :
    node_check_for_upload_create false false [] ("/a") ("/r") [] ("s")
      (LNode.symlink ("/a/b/c") ("/a/b/c")) [] = Except.ok ([], []) :=
  claim_C4 false [] ("/a") ("/r") [] ("s") ("/a/b/c") ("/a/b/c") []
    (by decide) ⟨("b/c" : String).data, by decide⟩

/-! Claim C6: error propagation; the regular-file branch swallows
non-ENOENT lstat failures. -/

/-- Errno values distinguished by the engine when classifying an IOError. -/
inductive IOErrno where
  | enoent
  | eacces
  | eperm
  | eio
deriving DecidableEq

/-- Transcription of the regular-file branch of node_check_for_upload_create
(sftpclone.py lines 357-364) with the outcomes of the remote calls made
explicit.  The single try block wraps both the remote lstat and, when
_file_need_upload holds, the call to file_upload (put followed by the
chmod/utime/chown of _match_modes), so an IOError raised by any of these
calls reaches the same except IOError handler.  The handler tests only the
errno: on ENOENT it calls file_upload, outside any try, so that this second
invocation's failures propagate; on any other errno it falls through and
the branch returns normally.  lstat_result is the outcome of sftp.lstat,
upload_try is the outcome of the file_upload invocation inside the try
body, and upload_retry the outcome of the one inside the handler; a
completed file_upload invocation contributes the put operation to the
trace. -/
def node_check_reg_branch (p : List String) (lsize : Nat) (lmtime : Mtime)
    (lstat_result : Except IOErrno (Nat × Int))
    (upload_try upload_retry : Except IOErrno Unit) : Except IOErrno (List ROp) :=
  match lstat_result with
  | Except.ok (rs, rm) =>
    if _file_need_upload lsize lmtime rs rm then
      match upload_try with
      | Except.ok _ => Except.ok [ROp.put p]
      | Except.error e =>
        if e = IOErrno.enoent then
          match upload_retry with
          | Except.ok _ => Except.ok [ROp.put p]
          | Except.error e2 => Except.error e2
        else Except.ok []
    else Except.ok []
  | Except.error e =>
    if e = IOErrno.enoent then
      match upload_retry with
      | Except.ok _ => Except.ok [ROp.put p]
      | Except.error e2 => Except.error e2
    else Except.ok []

/-- C6 counterexample: in the regular-file branch an EACCES failure of the
remote lstat is swallowed, and so is an EACCES failure of the upload
performed inside the try body: in both runs the branch returns normally
with no propagated error, contradicting the claim that non-benign stat and
upload failures propagate and abort the pass. -/
theorem claim_C6_counterexample :
    node_check_reg_branch (["f"]) 100 ⟨1000, 0⟩ (Except.error IOErrno.eacces)
        (Except.ok ()) (Except.ok ()) = Except.ok [] ∧
    node_check_reg_branch (["f"]) 100 ⟨1000, 0⟩ (Except.ok (90, 1000))
        (Except.error IOErrno.eacces) (Except.ok ()) = Except.ok [] ∧
    IOErrno.eacces ≠ IOErrno.enoent :=
  ⟨rfl, rfl, by decide⟩

/-- C6 amended: the regular-file branch propagates an IOError if and only
if the try body failed with ENOENT (either the lstat failed with ENOENT,
or an upload was needed and the upload inside the try failed with ENOENT)
and the handler's own re-upload then failed; every other IOError raised in
the try body, whether by the stat or by the upload, is silently swallowed
and the branch returns normally. -/
theorem claim_C6_amended (p : List String) (lsize : Nat) (lmtime : Mtime)
    (lres : Except IOErrno (Nat × Int)) (u1 u2 : Except IOErrno Unit)
    (e2 : IOErrno) :
    node_check_reg_branch p lsize lmtime lres u1 u2 = Except.error e2 ↔
      (u2 = Except.error e2 ∧
        (lres = Except.error IOErrno.enoent ∨
         ∃ rs rm, lres = Except.ok (rs, rm) ∧
           _file_need_upload lsize lmtime rs rm = true ∧
           u1 = Except.error IOErrno.enoent)) := by
  cases lres with
  | ok v =>
    obtain ⟨rs, rm⟩ := v
    by_cases hneed : _file_need_upload lsize lmtime rs rm = true
    · cases u1 with
      | ok u =>
        simp [node_check_reg_branch, hneed]
      | error e =>
        by_cases he : e = IOErrno.enoent
        · subst he
          cases u2 with
          | ok u2v => simp [node_check_reg_branch, hneed]
          | error e2x =>
            simp [node_check_reg_branch, hneed]
            exact fun _ => ⟨rs, rm, ⟨rfl, rfl⟩, hneed⟩
        · cases u2 with
          | ok u2v => simp [node_check_reg_branch, hneed, he]
          | error e2x => simp [node_check_reg_branch, hneed, he]
    · cases u2 with
      | ok u2v => simp [node_check_reg_branch, hneed]
      | error e2x => simp [node_check_reg_branch, hneed]
  | error e =>
    by_cases he : e = IOErrno.enoent
    · subst he
      cases u2 with
      | ok u2v => simp [node_check_reg_branch]
      | error e2x => simp [node_check_reg_branch]
    · cases u2 with
      | ok u2v => simp [node_check_reg_branch, he]
      | error e2x => simp [node_check_reg_branch, he]


/-! Evaluation lemmas: one per branch of the engine functions. -/

theorem cfd_nil (lcs : List (String × LNode)) (rel : List String) :
    check_for_deletion lcs rel [] = ([], []) := by
  rw [check_for_deletion]

theorem cfd_cons (lcs : List (String × LNode)) (rel : List String)
    (name : String) (child : RNode) (rest : List (String × RNode)) :
    check_for_deletion lcs rel ((name, child) :: rest) =
      ((check_for_deletion_entry lcs rel name child).1 ++
        (check_for_deletion lcs rel rest).1,
       (check_for_deletion_entry lcs rel name child).2 ++
        (check_for_deletion lcs rel rest).2) := by
  rw [check_for_deletion]

theorem cfd_entry_del (lcs : List (String × LNode)) (rel : List String)
    (name : String) (child : RNode)
    (hdel : _must_be_deleted (findPath lcs (rel ++ [name])) (RNode.ftype child) = true) :
    check_for_deletion_entry lcs rel name child =
      (remote_delete (rel ++ [name]) child, []) := by
  rw [check_for_deletion_entry.eq_def]
  by_cases hlnk : RNode.ftype child = FType.lnk
  · rw [if_pos hlnk, if_pos hdel]
  · rw [if_neg hlnk, if_pos hdel]

theorem cfd_entry_keep_lnk (lcs : List (String × LNode)) (rel : List String)
    (name : String) (child : RNode)
    (hlnk : RNode.ftype child = FType.lnk)
    (hdel : _must_be_deleted (findPath lcs (rel ++ [name])) (RNode.ftype child) = false) :
    check_for_deletion_entry lcs rel name child = ([], [(name, child)]) := by
  rw [check_for_deletion_entry.eq_def, if_pos hlnk, if_neg (by rw [hdel]; exact Bool.noConfusion)]

theorem cfd_entry_keep_dir (lcs : List (String × LNode)) (rel : List String)
    (name : String) (cs : List (String × RNode))
    (hdel : _must_be_deleted (findPath lcs (rel ++ [name])) (RNode.ftype (RNode.dir cs)) = false) :
    check_for_deletion_entry lcs rel name (RNode.dir cs) =
      ((check_for_deletion lcs (rel ++ [name]) cs).1,
       [(name, RNode.dir (check_for_deletion lcs (rel ++ [name]) cs).2)]) := by
  rw [check_for_deletion_entry.eq_def,
    if_neg (show ¬RNode.ftype (RNode.dir cs) = FType.lnk from fun h => FType.noConfusion h),
    if_neg (by rw [hdel]; exact Bool.noConfusion)]

theorem cfd_entry_keep_sym (lcs : List (String × LNode)) (rel : List String)
    (name : String) (t : String)
    (hdel : _must_be_deleted (findPath lcs (rel ++ [name]))
      (RNode.ftype (RNode.symlink t)) = false) :
    check_for_deletion_entry lcs rel name (RNode.symlink t) =
      ([], [(name, RNode.symlink t)]) := by
  rw [check_for_deletion_entry.eq_def, if_pos (show RNode.ftype (RNode.symlink t) = FType.lnk from rfl),
    if_neg (by rw [hdel]; exact Bool.noConfusion)]

theorem cfd_entry_keep_reg (lcs : List (String × LNode)) (rel : List String)
    (name : String) (s : Nat) (m : Int)
    (hdel : _must_be_deleted (findPath lcs (rel ++ [name]))
      (RNode.ftype (RNode.reg s m)) = false) :
    check_for_deletion_entry lcs rel name (RNode.reg s m) =
      ([], [(name, RNode.reg s m)]) := by
  rw [check_for_deletion_entry.eq_def,
    if_neg (show ¬RNode.ftype (RNode.reg s m) = FType.lnk from fun h => FType.noConfusion h),
    if_neg (by rw [hdel]; exact Bool.noConfusion)]

theorem cfd_entry_keep_other (lcs : List (String × LNode)) (rel : List String)
    (name : String) (k : OtherKind)
    (hdel : _must_be_deleted (findPath lcs (rel ++ [name]))
      (RNode.ftype (RNode.other k)) = false) :
    check_for_deletion_entry lcs rel name (RNode.other k) =
      ([], [(name, RNode.other k)]) := by
  have hlnk : ¬RNode.ftype (RNode.other k) = FType.lnk := by
    cases k <;> exact fun h => FType.noConfusion h
  rw [check_for_deletion_entry.eq_def, if_neg hlnk, if_neg (by rw [hdel]; exact Bool.noConfusion)]

theorem ncu_excluded (fix ch : Bool) (excl : List String) (lp rp : String)
    (rel : List String) (f : String) (l : LNode) (rcs : List (String × RNode))
    (hex : localAbs lp (rel ++ [f]) ∈ excl) :
    node_check_for_upload_create fix ch excl lp rp rel f l rcs =
      Except.ok ([], rcs) := by
  rw [node_check_for_upload_create.eq_def, if_pos hex]

theorem ncu_dir_found (fix ch : Bool) (excl : List String) (lp rp : String)
    (rel : List String) (f : String) (meta : LMeta)
    (lcs : List (String × LNode)) (rcs rcs2 : List (String × RNode))
    (hex : localAbs lp (rel ++ [f]) ∉ excl)
    (hlk : lookupName rcs f = some (RNode.dir rcs2))
    (ops : List ROp) (rcs3 : List (String × RNode))
    (hok : check_for_upload_create fix ch excl lp rp (rel ++ [f]) lcs rcs2 =
      Except.ok (ops, rcs3)) :
    node_check_for_upload_create fix ch excl lp rp rel f (LNode.dir meta lcs) rcs =
      Except.ok (_match_modes ch (rel ++ [f]) meta ++ ops,
        setEntry rcs f (RNode.dir rcs3)) := by
  rw [node_check_for_upload_create.eq_def, if_neg hex]
  simp only [hlk, hok]

theorem ncu_dir_found_err (fix ch : Bool) (excl : List String) (lp rp : String)
    (rel : List String) (f : String) (meta : LMeta)
    (lcs : List (String × LNode)) (rcs rcs2 : List (String × RNode))
    (hex : localAbs lp (rel ++ [f]) ∉ excl)
    (hlk : lookupName rcs f = some (RNode.dir rcs2))
    (e : Unit)
    (herr : check_for_upload_create fix ch excl lp rp (rel ++ [f]) lcs rcs2 =
      Except.error e) :
    node_check_for_upload_create fix ch excl lp rp rel f (LNode.dir meta lcs) rcs =
      Except.error e := by
  rw [node_check_for_upload_create.eq_def, if_neg hex]
  simp only [hlk, herr]

theorem ncu_dir_clash (fix ch : Bool) (excl : List String) (lp rp : String)
    (rel : List String) (f : String) (meta : LMeta)
    (lcs : List (String × LNode)) (rcs : List (String × RNode)) (v : RNode)
    (hex : localAbs lp (rel ++ [f]) ∉ excl)
    (hlk : lookupName rcs f = some v)
    (hnd : ∀ cs, v ≠ RNode.dir cs) :
    node_check_for_upload_create fix ch excl lp rp rel f (LNode.dir meta lcs) rcs =
      Except.error () := by
  rw [node_check_for_upload_create.eq_def, if_neg hex]
  cases v with
  | dir cs => exact absurd rfl (hnd cs)
  | symlink t => simp only [hlk]
  | reg s m => simp only [hlk]
  | other k => simp only [hlk]

theorem ncu_dir_absent (fix ch : Bool) (excl : List String) (lp rp : String)
    (rel : List String) (f : String) (meta : LMeta)
    (lcs : List (String × LNode)) (rcs : List (String × RNode))
    (hex : localAbs lp (rel ++ [f]) ∉ excl)
    (hlk : lookupName rcs f = none)
    (ops : List ROp) (rcs3 : List (String × RNode))
    (hok : check_for_upload_create fix ch excl lp rp (rel ++ [f]) lcs [] =
      Except.ok (ops, rcs3)) :
    node_check_for_upload_create fix ch excl lp rp rel f (LNode.dir meta lcs) rcs =
      Except.ok (ROp.mkdir (rel ++ [f]) :: (_match_modes ch (rel ++ [f]) meta ++ ops),
        setEntry rcs f (RNode.dir rcs3)) := by
  rw [node_check_for_upload_create.eq_def, if_neg hex]
  simp only [hlk, hok]

theorem ncu_dir_absent_err (fix ch : Bool) (excl : List String) (lp rp : String)
    (rel : List String) (f : String) (meta : LMeta)
    (lcs : List (String × LNode)) (rcs : List (String × RNode))
    (hex : localAbs lp (rel ++ [f]) ∉ excl)
    (hlk : lookupName rcs f = none)
    (e : Unit)
    (herr : check_for_upload_create fix ch excl lp rp (rel ++ [f]) lcs [] =
      Except.error e) :
    node_check_for_upload_create fix ch excl lp rp rel f (LNode.dir meta lcs) rcs =
      Except.error e := by
  rw [node_check_for_upload_create.eq_def, if_neg hex]
  simp only [hlk, herr]

theorem ncu_symlink_none (fix ch : Bool) (excl : List String) (lp rp : String)
    (rel : List String) (f : String) (raw res : String)
    (rcs : List (String × RNode))
    (hex : localAbs lp (rel ++ [f]) ∉ excl)
    (hd : symlink_destination fix lp rp raw res = none) :
    node_check_for_upload_create fix ch excl lp rp rel f (LNode.symlink raw res) rcs =
      Except.ok ([], rcs) := by
  rw [node_check_for_upload_create.eq_def, if_neg hex]
  simp only [hd]

theorem ncu_symlink_some (fix ch : Bool) (excl : List String) (lp rp : String)
    (rel : List String) (f : String) (raw res dest : String)
    (rcs : List (String × RNode))
    (hex : localAbs lp (rel ++ [f]) ∉ excl)
    (hd : symlink_destination fix lp rp raw res = some dest) :
    node_check_for_upload_create fix ch excl lp rp rel f (LNode.symlink raw res) rcs =
      Except.ok ((create_update_symlink dest (rel ++ [f]) (lookupName rcs f)).1,
        match (create_update_symlink dest (rel ++ [f]) (lookupName rcs f)).2 with
        | some nn => setEntry rcs f nn
        | none => rcs) := by
  rw [node_check_for_upload_create.eq_def, if_neg hex]
  simp only [hd]

theorem ncu_reg_found (fix ch : Bool) (excl : List String) (lp rp : String)
    (rel : List String) (f : String) (meta : LMeta) (s : Nat) (t : Mtime)
    (rcs : List (String × RNode)) (rs : Nat) (rm : Int)
    (hex : localAbs lp (rel ++ [f]) ∉ excl)
    (hlk : lookupName rcs f = some (RNode.reg rs rm)) :
    node_check_for_upload_create fix ch excl lp rp rel f (LNode.reg meta s t) rcs =
      (if _file_need_upload s t rs rm then
        Except.ok (ROp.put (rel ++ [f]) :: _match_modes ch (rel ++ [f]) meta,
          setEntry rcs f (RNode.reg s t.toInt))
      else Except.ok ([], rcs)) := by
  rw [node_check_for_upload_create.eq_def, if_neg hex]
  simp only [hlk]

theorem ncu_reg_clash (fix ch : Bool) (excl : List String) (lp rp : String)
    (rel : List String) (f : String) (meta : LMeta) (s : Nat) (t : Mtime)
    (rcs : List (String × RNode)) (v : RNode)
    (hex : localAbs lp (rel ++ [f]) ∉ excl)
    (hlk : lookupName rcs f = some v)
    (hnr : ∀ rs rm, v ≠ RNode.reg rs rm) :
    node_check_for_upload_create fix ch excl lp rp rel f (LNode.reg meta s t) rcs =
      Except.ok (ROp.put (rel ++ [f]) :: _match_modes ch (rel ++ [f]) meta,
        setEntry rcs f (RNode.reg s t.toInt)) := by
  rw [node_check_for_upload_create.eq_def, if_neg hex]
  cases v with
  | dir cs => simp only [hlk]
  | symlink tg => simp only [hlk]
  | reg rs rm => exact absurd rfl (hnr rs rm)
  | other k => simp only [hlk]

theorem ncu_reg_absent (fix ch : Bool) (excl : List String) (lp rp : String)
    (rel : List String) (f : String) (meta : LMeta) (s : Nat) (t : Mtime)
    (rcs : List (String × RNode))
    (hex : localAbs lp (rel ++ [f]) ∉ excl)
    (hlk : lookupName rcs f = none) :
    node_check_for_upload_create fix ch excl lp rp rel f (LNode.reg meta s t) rcs =
      Except.ok (ROp.put (rel ++ [f]) :: _match_modes ch (rel ++ [f]) meta,
        setEntry rcs f (RNode.reg s t.toInt)) := by
  rw [node_check_for_upload_create.eq_def, if_neg hex]
  simp only [hlk]

theorem ncu_other (fix ch : Bool) (excl : List String) (lp rp : String)
    (rel : List String) (f : String) (k : OtherKind)
    (rcs : List (String × RNode))
    (hex : localAbs lp (rel ++ [f]) ∉ excl) :
    node_check_for_upload_create fix ch excl lp rp rel f (LNode.other k) rcs =
      Except.ok ([], rcs) := by
  rw [node_check_for_upload_create.eq_def, if_neg hex]

theorem cuc_nil (fix ch : Bool) (excl : List String) (lp rp : String)
    (rel : List String) (rcs : List (String × RNode)) :
    check_for_upload_create fix ch excl lp rp rel [] rcs = Except.ok ([], rcs) := by
  rw [check_for_upload_create]

theorem cuc_cons_ok (fix ch : Bool) (excl : List String) (lp rp : String)
    (rel : List String) (f : String) (l : LNode)
    (rest : List (String × LNode)) (rcs : List (String × RNode))
    (ops1 : List ROp) (rcs1 : List (String × RNode))
    (h1 : node_check_for_upload_create fix ch excl lp rp rel f l rcs =
      Except.ok (ops1, rcs1))
    (ops2 : List ROp) (rcs2 : List (String × RNode))
    (h2 : check_for_upload_create fix ch excl lp rp rel rest rcs1 =
      Except.ok (ops2, rcs2)) :
    check_for_upload_create fix ch excl lp rp rel ((f, l) :: rest) rcs =
      Except.ok (ops1 ++ ops2, rcs2) := by
  rw [check_for_upload_create]
  simp only [h1, h2]

theorem cuc_cons_err1 (fix ch : Bool) (excl : List String) (lp rp : String)
    (rel : List String) (f : String) (l : LNode)
    (rest : List (String × LNode)) (rcs : List (String × RNode))
    (e : Unit)
    (h1 : node_check_for_upload_create fix ch excl lp rp rel f l rcs =
      Except.error e) :
    check_for_upload_create fix ch excl lp rp rel ((f, l) :: rest) rcs =
      Except.error e := by
  rw [check_for_upload_create]
  simp only [h1]

theorem cuc_cons_err2 (fix ch : Bool) (excl : List String) (lp rp : String)
    (rel : List String) (f : String) (l : LNode)
    (rest : List (String × LNode)) (rcs : List (String × RNode))
    (ops1 : List ROp) (rcs1 : List (String × RNode))
    (h1 : node_check_for_upload_create fix ch excl lp rp rel f l rcs =
      Except.ok (ops1, rcs1))
    (e : Unit)
    (h2 : check_for_upload_create fix ch excl lp rp rel rest rcs1 =
      Except.error e) :
    check_for_upload_create fix ch excl lp rp rel ((f, l) :: rest) rcs =
      Except.error e := by
  rw [check_for_upload_create]
  simp only [h1, h2]

theorem run_root_missing (fix ch : Bool) (excl : List String) (lp rp : String)
    (lcs : List (String × LNode)) :
    run fix ch excl lp rp lcs none = Except.error () := rfl

theorem run_ok (fix ch : Bool) (excl : List String) (lp rp : String)
    (lcs : List (String × LNode)) (rcs : List (String × RNode))
    (cops : List ROp) (rcs2 : List (String × RNode))
    (hok : check_for_upload_create fix ch excl lp rp [] lcs
        (check_for_deletion lcs [] rcs).2 = Except.ok (cops, rcs2)) :
    run fix ch excl lp rp lcs (some rcs) =
      Except.ok ((check_for_deletion lcs [] rcs).1 ++ cops, rcs2) := by
  rw [run, hok]

theorem run_err (fix ch : Bool) (excl : List String) (lp rp : String)
    (lcs : List (String × LNode)) (rcs : List (String × RNode))
    (e : Unit)
    (herr : check_for_upload_create fix ch excl lp rp [] lcs
        (check_for_deletion lcs [] rcs).2 = Except.error e) :
    run fix ch excl lp rp lcs (some rcs) = Except.error e := by
  rw [run, herr]

/-! Paths touched by the passes. -/

theorem match_modes_path (ch : Bool) (p : List String) (meta : LMeta) :
    ∀ op ∈ _match_modes ch p meta, ROp.path op = p := by
  intro op hop
  unfold _match_modes at hop
  cases ch with
  | true =>
    simp at hop
    rcases hop with rfl | rfl | rfl <;> rfl
  | false =>
    simp at hop
    rcases hop with rfl | rfl <;> rfl

theorem bool_off {b : Bool} (h : ¬b = true) : b = false := by
  cases b
  · rfl
  · exact absurd rfl h

theorem create_update_symlink_path (d : String) (p : List String)
    (cur : Option RNode) :
    ∀ op ∈ (create_update_symlink d p cur).1, ROp.path op = p := by
  intro op hop
  match cur with
  | none =>
    rw [show create_update_symlink d p none =
      ([ROp.symlinkTo d p], some (RNode.symlink d)) from rfl] at hop
    simp only [List.mem_cons, List.not_mem_nil, or_false] at hop
    rw [hop]; rfl
  | some (RNode.symlink t) =>
    rw [show create_update_symlink d p (some (RNode.symlink t)) =
      if d ≠ t then ([ROp.remove p, ROp.symlinkTo d p], some (RNode.symlink d))
      else ([], some (RNode.symlink t)) from rfl] at hop
    by_cases hdt : d ≠ t
    · rw [if_pos hdt] at hop
      simp only [List.mem_cons, List.not_mem_nil, or_false] at hop
      rcases hop with h | h <;> rw [h] <;> rfl
    · rw [if_neg hdt] at hop
      exact absurd hop (List.not_mem_nil op)
  | some (RNode.dir cs) =>
    rw [show create_update_symlink d p (some (RNode.dir cs)) =
      ([ROp.symlinkFailed d p], some (RNode.dir cs)) from rfl] at hop
    simp only [List.mem_cons, List.not_mem_nil, or_false] at hop
    rw [hop]; rfl
  | some (RNode.reg s m) =>
    rw [show create_update_symlink d p (some (RNode.reg s m)) =
      ([ROp.symlinkFailed d p], some (RNode.reg s m)) from rfl] at hop
    simp only [List.mem_cons, List.not_mem_nil, or_false] at hop
    rw [hop]; rfl
  | some (RNode.other k) =>
    rw [show create_update_symlink d p (some (RNode.other k)) =
      ([ROp.symlinkFailed d p], some (RNode.other k)) from rfl] at hop
    simp only [List.mem_cons, List.not_mem_nil, or_false] at hop
    rw [hop]; rfl

theorem remote_delete_path_shape :
    (∀ (p : List String) (c : RNode), ∀ op ∈ remote_delete p c,
      ∃ q, ROp.path op = p ++ q) ∧
    (∀ (p : List String) (cs : List (String × RNode)),
      ∀ op ∈ remote_delete_children p cs, ∃ n q, ROp.path op = p ++ n :: q) := by
  refine remote_delete.mutual_induct
    (fun p c => ∀ op ∈ remote_delete p c, ∃ q, ROp.path op = p ++ q)
    (fun p cs => ∀ op ∈ remote_delete_children p cs, ∃ n q, ROp.path op = p ++ n :: q)
    ?_ ?_ ?_ ?_
  · intro p cs ih op hop
    rw [remote_delete] at hop
    rcases List.mem_append.1 hop with h | h
    · obtain ⟨n, q, hq⟩ := ih op h
      exact ⟨n :: q, hq⟩
    · simp only [List.mem_cons, List.not_mem_nil, or_false] at h
      exact ⟨[], by rw [h, List.append_nil]; rfl⟩
  · intro t p hnd op hop
    have hreduce : remote_delete p t = [ROp.remove p] := by
      cases t with
      | dir cs => exact absurd rfl (hnd cs)
      | symlink tg => rfl
      | reg s m => rfl
      | other k => rfl
    rw [hreduce] at hop
    simp only [List.mem_cons, List.not_mem_nil, or_false] at hop
    exact ⟨[], by rw [hop, List.append_nil]; rfl⟩
  · intro p op hop
    rw [remote_delete_children] at hop
    exact absurd hop (List.not_mem_nil op)
  · intro p n c rest ih1 ih2 op hop
    rw [remote_delete_children] at hop
    rcases List.mem_append.1 hop with h | h
    · obtain ⟨q, hq⟩ := ih1 op h
      exact ⟨n, q, by rw [hq, List.append_assoc, List.singleton_append]⟩
    · exact ih2 op h

theorem check_for_deletion_ops_path (lcs : List (String × LNode)) :
    (∀ (rel : List String) (rcs : List (String × RNode)),
      ∀ op ∈ (check_for_deletion lcs rel rcs).1,
        ∃ n q, ROp.path op = rel ++ n :: q) ∧
    (∀ (rel : List String) (name : String) (child : RNode),
      ∀ op ∈ (check_for_deletion_entry lcs rel name child).1,
        ∃ q, ROp.path op = rel ++ name :: q) := by
  refine check_for_deletion.mutual_induct lcs
    (fun rel rcs => ∀ op ∈ (check_for_deletion lcs rel rcs).1,
      ∃ n q, ROp.path op = rel ++ n :: q)
    (fun rel name child => ∀ op ∈ (check_for_deletion_entry lcs rel name child).1,
      ∃ q, ROp.path op = rel ++ name :: q)
    ?_ ?_ ?_ ?_ ?_ ?_ ?_
  · intro child rel name _ hlnk hdel op hop
    rw [cfd_entry_del lcs rel name child hdel] at hop
    obtain ⟨q, hq⟩ := remote_delete_path_shape.1 (rel ++ [name]) child op hop
    exact ⟨q, by rw [hq, List.append_assoc, List.singleton_append]⟩
  · intro child rel name _ hlnk hdel op hop
    rw [cfd_entry_keep_lnk lcs rel name child hlnk (bool_off hdel)] at hop
    exact absurd hop (List.not_mem_nil op)
  · intro child rel name _ hlnk hdel op hop
    rw [cfd_entry_del lcs rel name child hdel] at hop
    obtain ⟨q, hq⟩ := remote_delete_path_shape.1 (rel ++ [name]) child op hop
    exact ⟨q, by rw [hq, List.append_assoc, List.singleton_append]⟩
  · intro rel name _ cs hlnk hdel ih op hop
    rw [cfd_entry_keep_dir lcs rel name cs (bool_off hdel)] at hop
    obtain ⟨n, q, hq⟩ := ih op hop
    exact ⟨n :: q, by rw [hq, List.append_assoc, List.singleton_append]⟩
  · intro child rel name _ hlnk hdel hnd op hop
    have hkeep : (check_for_deletion_entry lcs rel name child).1 = [] := by
      cases child with
      | dir cs => exact absurd rfl (hnd cs)
      | symlink t => exact absurd rfl (by intro h; exact hlnk h)
      | reg s m =>
        rw [cfd_entry_keep_reg lcs rel name s m (bool_off hdel)]
      | other k =>
        rw [cfd_entry_keep_other lcs rel name k (bool_off hdel)]
    rw [hkeep] at hop
    exact absurd hop (List.not_mem_nil op)
  · intro rel op hop
    rw [cfd_nil] at hop
    exact absurd hop (List.not_mem_nil op)
  · intro rel n c rest ih1 ih2 op hop
    rw [cfd_cons] at hop
    rcases List.mem_append.1 hop with h | h
    · obtain ⟨q, hq⟩ := ih1 op h
      exact ⟨n, q, hq⟩
    · exact ih2 op h

theorem creation_ops_path (fix ch : Bool) (excl : List String) (lp rp : String) :
    (∀ (rel : List String) (f : String) (l : LNode) (rcs : List (String × RNode))
      (ops : List ROp) (rcs2 : List (String × RNode)),
      node_check_for_upload_create fix ch excl lp rp rel f l rcs =
        Except.ok (ops, rcs2) →
      ∀ op ∈ ops, ∃ q, ROp.path op = rel ++ f :: q) ∧
    (∀ (rel : List String) (lcs : List (String × LNode)) (rcs : List (String × RNode))
      (ops : List ROp) (rcs2 : List (String × RNode)),
      check_for_upload_create fix ch excl lp rp rel lcs rcs =
        Except.ok (ops, rcs2) →
      ∀ op ∈ ops, ∃ n q, ROp.path op = rel ++ n :: q) := by
  have base := node_check_for_upload_create.mutual_induct fix ch excl lp rp
    (fun rel f l rcs => ∀ (ops : List ROp) (rcs2 : List (String × RNode)),
      node_check_for_upload_create fix ch excl lp rp rel f l rcs =
        Except.ok (ops, rcs2) →
      ∀ op ∈ ops, ∃ q, ROp.path op = rel ++ f :: q)
    (fun rel lcs rcs => ∀ (ops : List ROp) (rcs2 : List (String × RNode)),
      check_for_upload_create fix ch excl lp rp rel lcs rcs =
        Except.ok (ops, rcs2) →
      ∀ op ∈ ops, ∃ n q, ROp.path op = rel ++ n :: q)
    ?_ ?_ ?_ ?_ ?_ ?_ ?_ ?_ ?_ ?_ ?_ ?_ ?_ ?_ ?_ ?_ ?_
  · exact ⟨fun rel f l rcs => base.1 rel f l rcs, fun rel lcs rcs => base.2 rel lcs rcs⟩
  · intro l rel f rcs hex ops rcs2 heq op hop
    rw [ncu_excluded fix ch excl lp rp rel f l rcs hex] at heq
    obtain ⟨h1, h2⟩ := Prod.mk.injEq .. ▸ Except.ok.inj heq
    rw [← h1] at hop
    exact absurd hop (List.not_mem_nil op)
  · intro rel f rcs hex meta lcs rcs2 hlk ops1 rcs3 hok ih ops rcs0 heq op hop
    rw [ncu_dir_found fix ch excl lp rp rel f meta lcs rcs rcs2 hex hlk ops1 rcs3 hok] at heq
    obtain ⟨h1, h2⟩ := Prod.mk.injEq .. ▸ Except.ok.inj heq
    rw [← h1] at hop
    rcases List.mem_append.1 hop with h | h
    · exact ⟨[], by rw [match_modes_path ch (rel ++ [f]) meta op h]⟩
    · obtain ⟨n, q, hq⟩ := ih ops1 rcs3 hok op h
      exact ⟨n :: q, by rw [hq, List.append_assoc, List.singleton_append]⟩
  · intro rel f rcs hex meta lcs rcs2 hlk e herr ih ops rcs0 heq op hop
    rw [ncu_dir_found_err fix ch excl lp rp rel f meta lcs rcs rcs2 hex hlk e herr] at heq
    exact absurd heq (fun h => Except.noConfusion h)
  · intro rel f rcs hex meta lcs v hnd hlk ops rcs0 heq op hop
    rw [ncu_dir_clash fix ch excl lp rp rel f meta lcs rcs v hex hlk
      (fun cs h => hnd cs h)] at heq
    exact absurd heq (fun h => Except.noConfusion h)
  · intro rel f rcs hex meta lcs hlk ops1 rcs3 hok ih ops rcs0 heq op hop
    rw [ncu_dir_absent fix ch excl lp rp rel f meta lcs rcs hex hlk ops1 rcs3 hok] at heq
    obtain ⟨h1, h2⟩ := Prod.mk.injEq .. ▸ Except.ok.inj heq
    rw [← h1] at hop
    rcases List.mem_cons.1 hop with h | h
    · exact ⟨[], by rw [h]; rfl⟩
    · rcases List.mem_append.1 h with h2 | h2
      · exact ⟨[], by rw [match_modes_path ch (rel ++ [f]) meta op h2]⟩
      · obtain ⟨n, q, hq⟩ := ih ops1 rcs3 hok op h2
        exact ⟨n :: q, by rw [hq, List.append_assoc, List.singleton_append]⟩
  · intro rel f rcs hex meta lcs hlk e herr ih ops rcs0 heq op hop
    rw [ncu_dir_absent_err fix ch excl lp rp rel f meta lcs rcs hex hlk e herr] at heq
    exact absurd heq (fun h => Except.noConfusion h)
  · intro rel f rcs hex raw res hd ops rcs0 heq op hop
    rw [ncu_symlink_none fix ch excl lp rp rel f raw res rcs hex hd] at heq
    obtain ⟨h1, h2⟩ := Prod.mk.injEq .. ▸ Except.ok.inj heq
    rw [← h1] at hop
    exact absurd hop (List.not_mem_nil op)
  · intro rel f rcs hex raw res dest hd ops rcs0 heq op hop
    rw [ncu_symlink_some fix ch excl lp rp rel f raw res dest rcs hex hd] at heq
    obtain ⟨h1, h2⟩ := Prod.mk.injEq .. ▸ Except.ok.inj heq
    rw [← h1] at hop
    exact ⟨[], by
      rw [create_update_symlink_path dest (rel ++ [f]) (lookupName rcs f) op hop]⟩
  · intro rel f rcs hex meta size mtime rs rm hlk hneed ops rcs0 heq op hop
    rw [ncu_reg_found fix ch excl lp rp rel f meta size mtime rcs rs rm hex hlk,
      if_pos hneed] at heq
    obtain ⟨h1, h2⟩ := Prod.mk.injEq .. ▸ Except.ok.inj heq
    rw [← h1] at hop
    rcases List.mem_cons.1 hop with h | h
    · exact ⟨[], by rw [h]; rfl⟩
    · exact ⟨[], by rw [match_modes_path ch (rel ++ [f]) meta op h]⟩
  · intro rel f rcs hex meta size mtime rs rm hlk hneed ops rcs0 heq op hop
    rw [ncu_reg_found fix ch excl lp rp rel f meta size mtime rcs rs rm hex hlk,
      if_neg hneed] at heq
    obtain ⟨h1, h2⟩ := Prod.mk.injEq .. ▸ Except.ok.inj heq
    rw [← h1] at hop
    exact absurd hop (List.not_mem_nil op)
  · intro rel f rcs hex meta size mtime v hnr hlk ops rcs0 heq op hop
    rw [ncu_reg_clash fix ch excl lp rp rel f meta size mtime rcs v hex hlk
      (fun rs rm h => hnr rs rm h)] at heq
    obtain ⟨h1, h2⟩ := Prod.mk.injEq .. ▸ Except.ok.inj heq
    rw [← h1] at hop
    rcases List.mem_cons.1 hop with h | h
    · exact ⟨[], by rw [h]; rfl⟩
    · exact ⟨[], by rw [match_modes_path ch (rel ++ [f]) meta op h]⟩
  · intro rel f rcs hex meta size mtime hlk ops rcs0 heq op hop
    rw [ncu_reg_absent fix ch excl lp rp rel f meta size mtime rcs hex hlk] at heq
    obtain ⟨h1, h2⟩ := Prod.mk.injEq .. ▸ Except.ok.inj heq
    rw [← h1] at hop
    rcases List.mem_cons.1 hop with h | h
    · exact ⟨[], by rw [h]; rfl⟩
    · exact ⟨[], by rw [match_modes_path ch (rel ++ [f]) meta op h]⟩
  · intro rel f rcs hex k ops rcs0 heq op hop
    rw [ncu_other fix ch excl lp rp rel f k rcs hex] at heq
    obtain ⟨h1, h2⟩ := Prod.mk.injEq .. ▸ Except.ok.inj heq
    rw [← h1] at hop
    exact absurd hop (List.not_mem_nil op)
  · intro rel rcs ops rcs0 heq op hop
    rw [cuc_nil fix ch excl lp rp rel rcs] at heq
    obtain ⟨h1, h2⟩ := Prod.mk.injEq .. ▸ Except.ok.inj heq
    rw [← h1] at hop
    exact absurd hop (List.not_mem_nil op)
  · intro rel rcs f l rest ops1 rcs3 h1 ops2 rcs31 h2 ih1 ih2 ops rcs0 heq op hop
    rw [cuc_cons_ok fix ch excl lp rp rel f l rest rcs ops1 rcs3 h1 ops2 rcs31 h2] at heq
    obtain ⟨he1, he2⟩ := Prod.mk.injEq .. ▸ Except.ok.inj heq
    rw [← he1] at hop
    rcases List.mem_append.1 hop with h | h
    · obtain ⟨q, hq⟩ := ih1 ops1 rcs3 h1 op h
      exact ⟨f, q, hq⟩
    · exact ih2 ops2 rcs31 h2 op h
  · intro rel rcs f l rest ops1 rcs3 h1 e h2 ih1 ih2 ops rcs0 heq op hop
    rw [cuc_cons_err2 fix ch excl lp rp rel f l rest rcs ops1 rcs3 h1 e h2] at heq
    exact absurd heq (fun h => Except.noConfusion h)
  · intro rel rcs f l rest e h1 ih1 ops rcs0 heq op hop
    rw [cuc_cons_err1 fix ch excl lp rp rel f l rest rcs e h1] at heq
    exact absurd heq (fun h => Except.noConfusion h)

/-! Claim C5: exclusion. -/

/-- C5 counterexample: the local node at relative path x is excluded (its
absolute local path is in the exclusion set), it exists locally as a
regular file, and the remote tree holds a directory at that path; the run
nevertheless deletes the remote entry, because the deletion pass never
consults the exclusion set: with a type mismatch the remote directory is
removed, contradicting the claim that excluded nodes are never deleted
remotely. -/
theorem claim_C5_counterexample :
    localAbs ("/l") (["x"]) ∈ [("/l/x" : String)] ∧
    run false false [("/l/x")] ("/l") ("/r")
        [(("x"), LNode.reg ⟨420, 0, 0⟩ 5 ⟨10, 0⟩)]
        (some [(("x"), RNode.dir [])]) =
      Except.ok ([ROp.rmdir (["x"])], []) :=
  ⟨by decide, rfl⟩

/-- C5 amended: for every local node whose absolute local path is in the
exclusion set, the creation pass performs no remote operation for it and
does not visit its descendants (it returns immediately, leaving the remote
children untouched); the deletion pass, however, does not consult the
exclusion set, so the remote entry at such a path is still deleted exactly
when the ordinary deletion rule fires, that is when no local entry exists
there or the local type differs from the remote type. -/
theorem claim_C5_amended (fix ch : Bool) (excl : List String) (lp rp : String)
    (rel : List String) (f : String) (l : LNode) (rcs : List (String × RNode)) :
    (localAbs lp (rel ++ [f]) ∈ excl →
      node_check_for_upload_create fix ch excl lp rp rel f l rcs =
        Except.ok ([], rcs))
    ∧ (∀ (lcs : List (String × LNode)) (name : String) (child : RNode),
        _must_be_deleted (findPath lcs (rel ++ [name])) (RNode.ftype child) = true →
        check_for_deletion_entry lcs rel name child =
          (remote_delete (rel ++ [name]) child, [])) :=
  ⟨fun hex => ncu_excluded fix ch excl lp rp rel f l rcs hex,
   fun lcs name child hdel => cfd_entry_del lcs rel name child hdel⟩

theorem claim_C5_witness :
    node_check_for_upload_create false false [("/l/x")] ("/l") ("/r") [] ("x")
      (LNode.reg ⟨420, 0, 0⟩ 5 ⟨10, 0⟩) [] = Except.ok ([], []) ∧
    check_for_deletion_entry [(("x"), LNode.reg ⟨420, 0, 0⟩ 5 ⟨10, 0⟩)] [] ("x")
      (RNode.dir []) = (remote_delete (["x"]) (RNode.dir []), []) :=
  ⟨(claim_C5_amended false false [("/l/x")] ("/l") ("/r") [] ("x")
      (LNode.reg ⟨420, 0, 0⟩ 5 ⟨10, 0⟩) []).1 (by decide),
   (claim_C5_amended false false [("/l/x")] ("/l") ("/r") [] ("x")
      (LNode.reg ⟨420, 0, 0⟩ 5 ⟨10, 0⟩) []).2
     [(("x"), LNode.reg ⟨420, 0, 0⟩ 5 ⟨10, 0⟩)] ("x") (RNode.dir []) (by decide)⟩

/-! Claim C10: the remote root must already exist. -/

/-- C10: a run opens with the listing of the remote root; when no listable
directory exists there the failure aborts the run before any remote
operation, and in a successful run every operation of both passes targets a
path strictly below the remote root, so the engine never creates (or
touches) the remote root itself. -/
theorem claim_C10 (fix ch : Bool) (excl : List String) (lp rp : String)
    (lcs : List (String × LNode)) :
    run fix ch excl lp rp lcs none = Except.error () ∧
    (∀ (rcs : List (String × RNode)) (ops : List ROp) (rcs2 : List (String × RNode)),
      run fix ch excl lp rp lcs (some rcs) = Except.ok (ops, rcs2) →
      ∀ op ∈ ops, ROp.path op ≠ []) := by
  constructor
  · rfl
  · intro rcs ops rcs2 hrun op hop
    cases hc : check_for_upload_create fix ch excl lp rp [] lcs
        (check_for_deletion lcs [] rcs).2 with
    | ok pr =>
      obtain ⟨cops, rcs3⟩ := pr
      rw [run_ok fix ch excl lp rp lcs rcs cops rcs3 hc] at hrun
      obtain ⟨h1, h2⟩ := Prod.mk.injEq .. ▸ Except.ok.inj hrun
      rw [← h1] at hop
      rcases List.mem_append.1 hop with h | h
      · obtain ⟨n, q, hq⟩ := (check_for_deletion_ops_path lcs).1 [] rcs op h
        rw [hq]
        simp
      · obtain ⟨n, q, hq⟩ :=
          (creation_ops_path fix ch excl lp rp).2 [] lcs _ cops rcs3 hc op h
        rw [hq]
        simp
    | error e =>
      rw [run_err fix ch excl lp rp lcs rcs e hc] at hrun
      exact absurd hrun (fun h => Except.noConfusion h)

theorem claim_C10_witness :
    run false false [] ("/l") ("/r") [("d", LNode.dir ⟨493, 0, 0⟩ [])] none =
      Except.error () ∧
    ROp.path (ROp.mkdir (["d"])) ≠ [] :=
  ⟨(claim_C10 false false [] ("/l") ("/r") [("d", LNode.dir ⟨493, 0, 0⟩ [])]).1,
   (claim_C10 false false [] ("/l") ("/r") [("d", LNode.dir ⟨493, 0, 0⟩ [])]).2 []
     [ROp.mkdir (["d"]), ROp.chmod (["d"]) 493, ROp.utime (["d"])]
     [("d", RNode.dir [])] rfl (ROp.mkdir (["d"])) (by decide)⟩

/-! Claim C8 machinery: key uniqueness and post-order traces. -/

/-- Each name occurs at most once in the listing (true of any real
directory listing). -/
def nodupKeys {α : Type} : List (String × α) → Bool
  | [] => true
  | (n, _) :: rest => !(rest.any (fun e => e.1 == n)) && nodupKeys rest

mutual

/-- Well-formed remote node: every directory listing below it has unique
names. -/
def RNode.wfB : RNode → Bool
  | RNode.dir cs => nodupKeys cs && RNode.wfChildren cs
  | _ => true

def RNode.wfChildren : List (String × RNode) → Bool
  | [] => true
  | (_, c) :: rest => RNode.wfB c && RNode.wfChildren rest

end

/-- The single operation that removes the node itself: rmdir for a
directory, remove for anything else. -/
def delOp (p : List String) : RNode → ROp
  | RNode.dir _ => ROp.rmdir p
  | _ => ROp.remove p

/-- A trace is post-ordered when, once a directory has been removed, no
later operation touches that directory or anything below it: every remote
node under a removed directory was already gone when the rmdir ran. -/
def PostOrdOps (L : List ROp) : Prop :=
  ∀ xs q ys, L = xs ++ ROp.rmdir q :: ys → ∀ op ∈ ys, ¬(q <+: ROp.path op)

theorem postord_nil : PostOrdOps [] := by
  intro xs q ys h op hop hpre
  exact absurd h.symm (List.append_ne_nil_of_right_ne_nil xs (by simp))

theorem postord_single (op0 : ROp) : PostOrdOps [op0] := by
  intro xs q ys h op hop hpre
  have hl := congrArg List.length h
  rw [List.length_append, List.length_cons] at hl
  have hys : ys.length = 0 := by
    simp only [List.length_nil, List.length_cons] at hl
    omega
  rw [List.length_eq_zero] at hys
  rw [hys] at hop
  exact absurd hop (List.not_mem_nil op)

theorem postord_append {A B : List ROp}
    (hA : PostOrdOps A) (hB : PostOrdOps B)
    (hcross : ∀ q, ROp.rmdir q ∈ A → ∀ op ∈ B, ¬(q <+: ROp.path op)) :
    PostOrdOps (A ++ B) := by
  intro xs q ys h op hop hpre
  rcases List.append_eq_append_iff.1 h.symm with ⟨A2, hA2, hd⟩ | ⟨xs2, hxs2, hB2⟩
  · cases A2 with
    | nil =>
      rw [List.append_nil] at hA2
      rw [List.nil_append] at hd
      exact hB [] q ys hd.symm op hop hpre
    | cons a A2t =>
      have hd2 : a = ROp.rmdir q ∧ A2t ++ B = ys := by
        have := hd
        rw [List.cons_append] at this
        exact ⟨(List.cons.injEq .. ▸ this).1.symm, (List.cons.injEq .. ▸ this).2.symm⟩
      rcases hd2 with ⟨ha, hys⟩
      rw [← hys] at hop
      rcases List.mem_append.1 hop with hmem | hmem
      · exact hA xs q A2t (by rw [hA2, ha]) op hmem hpre
      · refine hcross q ?_ op hmem hpre
        rw [hA2, ha]
        exact List.mem_append.2 (Or.inr (List.mem_cons_self _ _))
  · exact hB xs2 q ys hB2 op hop hpre

theorem prefix_cancel {α : Type} [DecidableEq α] (p : List α) :
    ∀ {a b : List α}, (p ++ a) <+: (p ++ b) → a <+: b := by
  induction p with
  | nil => intro a b h; exact h
  | cons x xs ih =>
    intro a b h
    rw [List.cons_append, List.cons_append, List.cons_prefix_cons] at h
    exact ih h.2

theorem prefix_disagree {p : List String} {n m : String} {t t2 : List String}
    (hnm : n ≠ m) : ¬((p ++ n :: t) <+: (p ++ m :: t2)) := by
  intro h
  have h2 := prefix_cancel p h
  rw [List.cons_prefix_cons] at h2
  exact hnm h2.1

theorem remote_delete_children_keys (p : List String)
    (cs : List (String × RNode)) :
    ∀ op ∈ remote_delete_children p cs,
      ∃ e ∈ cs, ∃ q, ROp.path op = p ++ e.1 :: q := by
  induction cs with
  | nil =>
    intro op hop
    rw [remote_delete_children] at hop
    exact absurd hop (List.not_mem_nil op)
  | cons e rest ih =>
    obtain ⟨n, c⟩ := e
    intro op hop
    rw [remote_delete_children] at hop
    rcases List.mem_append.1 hop with h | h
    · obtain ⟨q, hq⟩ := remote_delete_path_shape.1 (p ++ [n]) c op h
      exact ⟨(n, c), List.mem_cons_self _ _, q,
        by rw [hq, List.append_assoc, List.singleton_append]⟩
    · obtain ⟨e2, he2, q, hq⟩ := ih op h
      exact ⟨e2, List.mem_cons_of_mem _ he2, q, hq⟩

theorem nodup_head_ne {α : Type} {n : String} {c : α}
    {rest : List (String × α)}
    (hnd : nodupKeys ((n, c) :: rest) = true) :
    ∀ e ∈ rest, e.1 ≠ n := by
  intro e he
  rw [nodupKeys] at hnd
  rcases Bool.and_eq_true .. ▸ hnd with ⟨h1, _⟩
  intro heq
  rw [Bool.not_eq_true', Bool.eq_false_iff] at h1
  exact h1 (List.any_eq_true.2 ⟨e, he, by rw [heq]; exact beq_self_eq_true n⟩)

theorem delOp_mem (p : List String) (c : RNode) : delOp p c ∈ remote_delete p c := by
  cases c with
  | dir cs =>
    rw [remote_delete]
    exact List.mem_append.2 (Or.inr (List.mem_cons_self _ _))
  | symlink t => exact List.mem_cons_self _ _
  | reg s m => exact List.mem_cons_self _ _
  | other k => exact List.mem_cons_self _ _

theorem remote_delete_coverage :
    (∀ (p : List String) (c : RNode), ∀ (q : List String) (c2 : RNode),
      q ≠ [] → nodeUnder c q = some c2 → delOp (p ++ q) c2 ∈ remote_delete p c) ∧
    (∀ (p : List String) (cs : List (String × RNode)), ∀ (q : List String) (c2 : RNode),
      q ≠ [] → nodeUnder (RNode.dir cs) q = some c2 →
      delOp (p ++ q) c2 ∈ remote_delete_children p cs) := by
  refine remote_delete.mutual_induct
    (fun p c => ∀ (q : List String) (c2 : RNode),
      q ≠ [] → nodeUnder c q = some c2 → delOp (p ++ q) c2 ∈ remote_delete p c)
    (fun p cs => ∀ (q : List String) (c2 : RNode),
      q ≠ [] → nodeUnder (RNode.dir cs) q = some c2 →
      delOp (p ++ q) c2 ∈ remote_delete_children p cs)
    ?_ ?_ ?_ ?_
  · intro p cs ih q c2 hne hq
    rw [remote_delete]
    exact List.mem_append.2 (Or.inl (ih q c2 hne hq))
  · intro t p hnd q c2 hne hq
    cases q with
    | nil => exact absurd rfl hne
    | cons n rest =>
      have : nodeUnder t (n :: rest) = none := by
        cases t with
        | dir cs => exact absurd rfl (hnd cs)
        | symlink tg => rfl
        | reg s m => rfl
        | other k => rfl
      rw [this] at hq
      exact Option.noConfusion hq
  · intro p q c2 hne hq
    cases q with
    | nil => exact absurd rfl hne
    | cons n rest =>
      have : nodeUnder (RNode.dir []) (n :: rest) = none := rfl
      rw [this] at hq
      exact Option.noConfusion hq
  · intro p n c rest ih1 ih2 q c2 hne hq
    cases q with
    | nil => exact absurd rfl hne
    | cons n2 q2 =>
      by_cases hnn : n = n2
      · subst hnn
        have hstep : nodeUnder (RNode.dir ((n, c) :: rest)) (n :: q2) =
            nodeUnder c q2 := by
          show (match lookupName ((n, c) :: rest) n with
            | some c3 => nodeUnder c3 q2
            | none => none) = nodeUnder c q2
          rw [show lookupName ((n, c) :: rest) n = some c from by
            rw [lookupName, if_pos rfl]]
        rw [hstep] at hq
        rw [remote_delete_children]
        cases q2 with
        | nil =>
          have hc2 : c = c2 := Option.some.inj hq
          subst hc2
          exact List.mem_append.2 (Or.inl (delOp_mem (p ++ [n]) c))
        | cons m q3 =>
          have := ih1 (m :: q3) c2 (by simp) hq
          rw [List.append_assoc, List.singleton_append] at this
          exact List.mem_append.2 (Or.inl this)
      · have hstep : nodeUnder (RNode.dir ((n, c) :: rest)) (n2 :: q2) =
            nodeUnder (RNode.dir rest) (n2 :: q2) := by
          show (match lookupName ((n, c) :: rest) n2 with
            | some c3 => nodeUnder c3 q2
            | none => none) =
            (match lookupName rest n2 with
            | some c3 => nodeUnder c3 q2
            | none => none)
          rw [show lookupName ((n, c) :: rest) n2 = lookupName rest n2 from by
            rw [lookupName, if_neg hnn]]
        rw [hstep] at hq
        rw [remote_delete_children]
        exact List.mem_append.2 (Or.inr (ih2 (n2 :: q2) c2 (by simp) hq))

theorem remote_delete_postord :
    (∀ (p : List String) (c : RNode), RNode.wfB c = true →
      PostOrdOps (remote_delete p c)) ∧
    (∀ (p : List String) (cs : List (String × RNode)),
      nodupKeys cs = true → RNode.wfChildren cs = true →
      PostOrdOps (remote_delete_children p cs)) := by
  refine remote_delete.mutual_induct
    (fun p c => RNode.wfB c = true → PostOrdOps (remote_delete p c))
    (fun p cs => nodupKeys cs = true → RNode.wfChildren cs = true →
      PostOrdOps (remote_delete_children p cs)) ?_ ?_ ?_ ?_
  · intro p cs ih hwf
    rw [remote_delete]
    rw [RNode.wfB] at hwf
    rcases Bool.and_eq_true .. ▸ hwf with ⟨h1, h2⟩
    refine postord_append (ih h1 h2) (postord_single _) ?_
    intro q hq op hop hpre
    simp only [List.mem_cons, List.not_mem_nil, or_false] at hop
    obtain ⟨e, he, t, ht⟩ := remote_delete_children_keys p cs (ROp.rmdir q) hq
    have hq2 : q = p ++ e.1 :: t := ht
    rw [hop] at hpre
    have hpath : ROp.path (ROp.rmdir p) = p := rfl
    rw [hpath] at hpre
    have hlen := List.IsPrefix.length_le hpre
    rw [hq2] at hlen
    simp only [List.length_append, List.length_cons] at hlen
    omega
  · intro t p hnd hwf
    have hreduce : remote_delete p t = [ROp.remove p] := by
      cases t with
      | dir cs => exact absurd rfl (hnd cs)
      | symlink tg => rfl
      | reg s m => rfl
      | other k => rfl
    rw [hreduce]
    exact postord_single _
  · intro p _ _
    rw [remote_delete_children]
    exact postord_nil
  · intro p n c rest ih1 ih2 hnd hwfc
    rw [remote_delete_children]
    rw [RNode.wfChildren] at hwfc
    rcases Bool.and_eq_true .. ▸ hwfc with ⟨hc, hrest⟩
    have hndrest : nodupKeys rest = true := by
      rw [nodupKeys] at hnd
      exact (Bool.and_eq_true .. ▸ hnd).2
    refine postord_append (ih1 hc) (ih2 hndrest hrest) ?_
    intro q hq op hop hpre
    obtain ⟨tq, htq⟩ := remote_delete_path_shape.1 (p ++ [n]) c (ROp.rmdir q) hq
    obtain ⟨e, he, t2, ht2⟩ := remote_delete_children_keys p rest op hop
    have hne := nodup_head_ne hnd e he
    have hq2 : q = p ++ n :: tq := by
      have : ROp.path (ROp.rmdir q) = q := rfl
      rw [this] at htq
      rw [htq, List.append_assoc, List.singleton_append]
    rw [hq2, ht2] at hpre
    exact prefix_disagree (fun h => hne h.symm) hpre

theorem cfd_ops_keys (lcs : List (String × LNode)) (rel : List String)
    (cs : List (String × RNode)) :
    ∀ op ∈ (check_for_deletion lcs rel cs).1,
      ∃ e ∈ cs, ∃ q, ROp.path op = rel ++ e.1 :: q := by
  induction cs with
  | nil =>
    intro op hop
    rw [cfd_nil] at hop
    exact absurd hop (List.not_mem_nil op)
  | cons e rest ih =>
    obtain ⟨n, c⟩ := e
    intro op hop
    rw [cfd_cons] at hop
    rcases List.mem_append.1 hop with h | h
    · obtain ⟨q, hq⟩ := (check_for_deletion_ops_path lcs).2 rel n c op h
      exact ⟨(n, c), List.mem_cons_self _ _, q, hq⟩
    · obtain ⟨e2, he2, q, hq⟩ := ih op h
      exact ⟨e2, List.mem_cons_of_mem _ he2, q, hq⟩

theorem check_for_deletion_postord (lcs : List (String × LNode)) :
    (∀ (rel : List String) (rcs : List (String × RNode)),
      nodupKeys rcs = true → RNode.wfChildren rcs = true →
      PostOrdOps ((check_for_deletion lcs rel rcs).1)) ∧
    (∀ (rel : List String) (name : String) (child : RNode),
      RNode.wfB child = true →
      PostOrdOps ((check_for_deletion_entry lcs rel name child).1)) := by
  refine check_for_deletion.mutual_induct lcs
    (fun rel rcs => nodupKeys rcs = true → RNode.wfChildren rcs = true →
      PostOrdOps ((check_for_deletion lcs rel rcs).1))
    (fun rel name child => RNode.wfB child = true →
      PostOrdOps ((check_for_deletion_entry lcs rel name child).1))
    ?_ ?_ ?_ ?_ ?_ ?_ ?_
  · intro child rel name _ hlnk hdel hwf
    rw [cfd_entry_del lcs rel name child hdel]
    exact remote_delete_postord.1 (rel ++ [name]) child hwf
  · intro child rel name _ hlnk hdel hwf
    rw [cfd_entry_keep_lnk lcs rel name child hlnk (bool_off hdel)]
    exact postord_nil
  · intro child rel name _ hlnk hdel hwf
    rw [cfd_entry_del lcs rel name child hdel]
    exact remote_delete_postord.1 (rel ++ [name]) child hwf
  · intro rel name _ cs hlnk hdel ih hwf
    rw [cfd_entry_keep_dir lcs rel name cs (bool_off hdel)]
    rw [RNode.wfB] at hwf
    rcases Bool.and_eq_true .. ▸ hwf with ⟨h1, h2⟩
    exact ih h1 h2
  · intro child rel name _ hlnk hdel hnd hwf
    have hkeep : (check_for_deletion_entry lcs rel name child).1 = [] := by
      cases child with
      | dir cs => exact absurd rfl (hnd cs)
      | symlink t => exact absurd rfl hlnk
      | reg s m => rw [cfd_entry_keep_reg lcs rel name s m (bool_off hdel)]
      | other k => rw [cfd_entry_keep_other lcs rel name k (bool_off hdel)]
    rw [hkeep]
    exact postord_nil
  · intro rel h1 h2
    rw [cfd_nil]
    exact postord_nil
  · intro rel n c rest ih1 ih2 hnd hwfc
    rw [cfd_cons]
    rw [RNode.wfChildren] at hwfc
    rcases Bool.and_eq_true .. ▸ hwfc with ⟨hc, hrest⟩
    have hndrest : nodupKeys rest = true := by
      rw [nodupKeys] at hnd
      exact (Bool.and_eq_true .. ▸ hnd).2
    refine postord_append (ih1 hc) (ih2 hndrest hrest) ?_
    intro q hq op hop hpre
    obtain ⟨tq, htq⟩ := (check_for_deletion_ops_path lcs).2 rel n c (ROp.rmdir q) hq
    obtain ⟨e, he, t2, ht2⟩ := cfd_ops_keys lcs rel rest op hop
    have hne := nodup_head_ne hnd e he
    have hq2 : q = rel ++ n :: tq := htq
    rw [hq2, ht2] at hpre
    exact prefix_disagree (fun h => hne h.symm) hpre

/-! Claim C8. -/

/-- C8: recursive remote deletion is post-order.  For a remote directory,
the trace is exactly the deletion of its listed content followed by the
rmdir of the directory itself; every operation of the content part targets
a path strictly below the directory; every remote node below the directory
receives its deletion operation in the content part (so the directory is
empty when the rmdir runs); and over the whole deletion pass, once a
directory has been removed no later operation touches it or anything below
it. -/
theorem claim_C8 (p : List String) (cs : List (String × RNode))
    (lcs : List (String × LNode)) (rel : List String)
    (rcs : List (String × RNode))
    (hwf : (nodupKeys cs && RNode.wfChildren cs) = true)
    (hwfr : (nodupKeys rcs && RNode.wfChildren rcs) = true) :
    remote_delete p (RNode.dir cs) =
      remote_delete_children p cs ++ [ROp.rmdir p]
    ∧ (∀ op ∈ remote_delete_children p cs,
        p <+: ROp.path op ∧ ROp.path op ≠ p)
    ∧ (∀ (q : List String) (c2 : RNode), q ≠ [] →
        nodeUnder (RNode.dir cs) q = some c2 →
        delOp (p ++ q) c2 ∈ remote_delete_children p cs)
    ∧ PostOrdOps (remote_delete p (RNode.dir cs))
    ∧ PostOrdOps ((check_for_deletion lcs rel rcs).1) := by
  rcases Bool.and_eq_true .. ▸ hwf with ⟨h1, h2⟩
  rcases Bool.and_eq_true .. ▸ hwfr with ⟨h3, h4⟩
  refine ⟨by rw [remote_delete], ?_, remote_delete_coverage.2 p cs,
    remote_delete_postord.1 p (RNode.dir cs) (by rw [RNode.wfB, h1, h2]; rfl),
    (check_for_deletion_postord lcs).1 rel rcs h3 h4⟩
  intro op hop
  obtain ⟨n, q, hq⟩ := remote_delete_path_shape.2 p cs op hop
  constructor
  · exact ⟨n :: q, hq.symm⟩
  · rw [hq]
    intro hcontra
    have := congrArg List.length hcontra
    simp only [List.length_append, List.length_cons] at this
    omega

theorem claim_C8_witness :
    remote_delete (["d"]) (RNode.dir [(("x"), RNode.reg 1 2)]) =
      remote_delete_children (["d"]) [(("x"), RNode.reg 1 2)] ++
        [ROp.rmdir (["d"])] ∧
    PostOrdOps (remote_delete (["d"]) (RNode.dir [(("x"), RNode.reg 1 2)])) :=
  ⟨(claim_C8 (["d"]) [(("x"), RNode.reg 1 2)] [] [] [] (by decide) (by decide)).1,
   (claim_C8 (["d"]) [(("x"), RNode.reg 1 2)] [] [] [] (by decide)
     (by decide)).2.2.2.1⟩

/-! Claims C1 and C7 machinery: the entries visited by the deletion pass. -/

/-- The entries the deletion pass walks: the listed entries of the remote
root, and, below every kept remote directory (one that is not a symlink and
whose local counterpart exists with the same type), its listed entries. -/
inductive Visits (lcs : List (String × LNode)) (rcs0 : List (String × RNode)) :
    List String → RNode → Prop where
  | base : ∀ (n : String) (c : RNode), (n, c) ∈ rcs0 → Visits lcs rcs0 [n] c
  | step : ∀ (p : List String) (cs : List (String × RNode)) (n : String) (c : RNode),
      Visits lcs rcs0 p (RNode.dir cs) →
      _must_be_deleted (findPath lcs p) (RNode.ftype (RNode.dir cs)) = false →
      (n, c) ∈ cs → Visits lcs rcs0 (p ++ [n]) c

theorem must_be_deleted_iff (lopt : Option LNode) (rt : FType) :
    _must_be_deleted lopt rt = true ↔
      (lopt = none ∨ ∃ l, lopt = some l ∧ LNode.ftype l ≠ rt) := by
  cases lopt with
  | none => simp [_must_be_deleted]
  | some l =>
    rw [_must_be_deleted]
    by_cases h : LNode.ftype l = rt
    · simp [h]
    · simp [h]

theorem visits_ne_nil {lcs : List (String × LNode)}
    {rcs0 : List (String × RNode)} {p : List String} {c : RNode}
    (hv : Visits lcs rcs0 p c) : p ≠ [] := by
  cases hv with
  | base n c h => simp
  | step p cs n c h1 h2 h3 => simp

theorem entry_ops_sub (lcs : List (String × LNode)) (rel : List String)
    (rcs : List (String × RNode)) (n : String) (c : RNode)
    (hmem : (n, c) ∈ rcs) :
    ∀ op ∈ (check_for_deletion_entry lcs rel n c).1,
      op ∈ (check_for_deletion lcs rel rcs).1 := by
  induction rcs with
  | nil => exact absurd hmem (List.not_mem_nil _)
  | cons e rest ih =>
    obtain ⟨m, c2⟩ := e
    intro op hop
    rw [cfd_cons]
    rcases List.mem_cons.1 hmem with heq | hrest
    · obtain ⟨h1, h2⟩ := Prod.mk.injEq .. ▸ heq
      subst h1
      subst h2
      exact List.mem_append.2 (Or.inl hop)
    · exact List.mem_append.2 (Or.inr (ih hrest op hop))

theorem prefix_snoc {α : Type} {q xs : List α} {x : α}
    (h : q <+: xs ++ [x]) : q = xs ++ [x] ∨ q <+: xs := by
  obtain ⟨t, ht⟩ := h
  cases t with
  | nil =>
    left
    rw [← ht, List.append_nil]
  | cons t0 ts =>
    right
    have hlen : q.length ≤ xs.length := by
      have := congrArg List.length ht
      rw [List.length_append, List.length_append, List.length_cons,
        List.length_cons, List.length_nil] at this
      omega
    have htake : q = (xs ++ [x]).take q.length := by
      have hpre : q <+: xs ++ [x] := ⟨t0 :: ts, ht⟩
      exact List.prefix_iff_eq_take.1 hpre
    rw [List.take_append_of_le_length hlen] at htake
    rw [htake]
    exact List.take_prefix _ _

theorem lookup_of_mem_nodup {α : Type} {cs : List (String × α)} {n : String}
    {c : α} (hmem : (n, c) ∈ cs) (hnd : nodupKeys cs = true) :
    lookupName cs n = some c := by
  induction cs with
  | nil => exact absurd hmem (List.not_mem_nil _)
  | cons e rest ih =>
    obtain ⟨m, c2⟩ := e
    rcases List.mem_cons.1 hmem with heq | hrest
    · obtain ⟨h1, h2⟩ := Prod.mk.injEq .. ▸ heq
      subst h1
      subst h2
      rw [lookupName, if_pos rfl]
    · have hne : m ≠ n := by
        intro hmn
        subst hmn
        have := nodup_head_ne hnd (m, c) hrest
        exact this rfl
      rw [lookupName, if_neg hne]
      rw [nodupKeys] at hnd
      exact ih hrest (Bool.and_eq_true .. ▸ hnd).2

theorem wfB_of_mem {cs : List (String × RNode)} {n : String} {c : RNode}
    (hmem : (n, c) ∈ cs) (hwf : RNode.wfChildren cs = true) :
    RNode.wfB c = true := by
  induction cs with
  | nil => exact absurd hmem (List.not_mem_nil _)
  | cons e rest ih =>
    obtain ⟨m, c2⟩ := e
    rw [RNode.wfChildren] at hwf
    rcases Bool.and_eq_true .. ▸ hwf with ⟨h1, h2⟩
    rcases List.mem_cons.1 hmem with heq | hrest
    · obtain ⟨hn, hc⟩ := Prod.mk.injEq .. ▸ heq
      rw [← hc] at h1
      exact h1
    · exact ih hrest h2

theorem nodeAt_snoc (n : String) :
    ∀ (p : List String) (rcs0 : List (String × RNode)), p ≠ [] →
      nodeAt rcs0 (p ++ [n]) =
        (match nodeAt rcs0 p with
         | some (RNode.dir cs) => lookupName cs n
         | _ => none) := by
  intro p
  induction p with
  | nil => intro rcs0 h; exact absurd rfl h
  | cons m p2 ih =>
    intro rcs0 _
    cases p2 with
    | nil =>
      show nodeAt rcs0 [m, n] = _
      rw [show nodeAt rcs0 [m, n] =
        (match lookupName rcs0 m with
         | some (RNode.dir cs) => nodeAt cs [n]
         | _ => none) from rfl]
      rw [show nodeAt rcs0 [m] = lookupName rcs0 m from rfl]
      cases hl : lookupName rcs0 m with
      | none => rfl
      | some c =>
        cases c with
        | dir cs => rfl
        | symlink t => rfl
        | reg s mt => rfl
        | other k => rfl
    | cons a p3 =>
      rw [show ((m :: a :: p3) ++ [n]) = m :: ((a :: p3) ++ [n]) from rfl]
      rw [show nodeAt rcs0 (m :: ((a :: p3) ++ [n])) =
        (match lookupName rcs0 m with
         | some (RNode.dir cs) => nodeAt cs ((a :: p3) ++ [n])
         | _ => none) from rfl]
      rw [show nodeAt rcs0 (m :: a :: p3) =
        (match lookupName rcs0 m with
         | some (RNode.dir cs) => nodeAt cs (a :: p3)
         | _ => none) from rfl]
      cases hl : lookupName rcs0 m with
      | none => rfl
      | some c =>
        cases c with
        | dir cs => exact ih cs (by simp)
        | symlink t => rfl
        | reg s mt => rfl
        | other k => rfl

theorem visits_nodeAt {lcs : List (String × LNode)}
    {rcs0 : List (String × RNode)}
    (hwf : (nodupKeys rcs0 && RNode.wfChildren rcs0) = true) :
    ∀ {p : List String} {c : RNode}, Visits lcs rcs0 p c →
      nodeAt rcs0 p = some c ∧ RNode.wfB c = true := by
  intro p c hv
  rcases Bool.and_eq_true .. ▸ hwf with ⟨hnd0, hwc0⟩
  induction hv with
  | base n c hmem =>
    constructor
    · rw [show nodeAt rcs0 [n] = lookupName rcs0 n from rfl]
      exact lookup_of_mem_nodup hmem hnd0
    · exact wfB_of_mem hmem hwc0
  | step p cs n c hvp hkeep hmem ih =>
    obtain ⟨hat, hwfd⟩ := ih
    rw [RNode.wfB] at hwfd
    rcases Bool.and_eq_true .. ▸ hwfd with ⟨hndc, hwcc⟩
    constructor
    · rw [nodeAt_snoc n p rcs0 (visits_ne_nil hvp), hat]
      exact lookup_of_mem_nodup hmem hndc
    · exact wfB_of_mem hmem hwcc

theorem visits_unique {lcs : List (String × LNode)}
    {rcs0 : List (String × RNode)}
    (hwf : (nodupKeys rcs0 && RNode.wfChildren rcs0) = true)
    {p : List String} {c c2 : RNode}
    (h1 : Visits lcs rcs0 p c) (h2 : Visits lcs rcs0 p c2) : c = c2 := by
  have e1 := (visits_nodeAt hwf h1).1
  have e2 := (visits_nodeAt hwf h2).1
  rw [e1] at e2
  exact Option.some.inj e2

theorem visits_prefix {lcs : List (String × LNode)}
    {rcs0 : List (String × RNode)} :
    ∀ {p : List String} {c : RNode}, Visits lcs rcs0 p c →
      ∀ q, q <+: p → q ≠ p → q ≠ [] →
        ∃ cs, Visits lcs rcs0 q (RNode.dir cs) ∧
          _must_be_deleted (findPath lcs q) (RNode.ftype (RNode.dir cs)) = false := by
  intro p c hv
  induction hv with
  | base n c hmem =>
    intro q hpre hne hnil
    rcases @prefix_snoc String q [] n hpre with h | h
    · exact absurd h hne
    · obtain ⟨t, ht⟩ := h
      rw [show ([] : List String) = List.nil ++ [] from rfl] at ht
      have : q = [] := by
        cases q with
        | nil => rfl
        | cons a q2 => exact absurd ht.symm (by simp)
      exact absurd this hnil
  | step p cs n c hvp hkeep hmem ih =>
    intro q hpre hne hnil
    rcases prefix_snoc hpre with h | h
    · exact absurd h hne
    · by_cases hqp : q = p
      · subst hqp
        exact ⟨cs, hvp, hkeep⟩
      · exact ih q h hqp hnil

theorem visits_deleted_ops (lcs : List (String × LNode))
    (rcs0 : List (String × RNode)) :
    ∀ {p : List String} {c : RNode}, Visits lcs rcs0 p c →
      (∀ op, _must_be_deleted (findPath lcs p) (RNode.ftype c) = true →
        op ∈ remote_delete p c → op ∈ (check_for_deletion lcs [] rcs0).1) ∧
      (∀ cs, c = RNode.dir cs →
        _must_be_deleted (findPath lcs p) (RNode.ftype c) = false →
        ∀ op ∈ (check_for_deletion lcs p cs).1,
          op ∈ (check_for_deletion lcs [] rcs0).1) := by
  intro p c hv
  induction hv with
  | base n c hmem =>
    constructor
    · intro op hdel hop
      refine entry_ops_sub lcs [] rcs0 n c hmem op ?_
      rw [cfd_entry_del lcs [] n c hdel]
      exact hop
    · intro cs hceq hkeep op hop
      subst hceq
      refine entry_ops_sub lcs [] rcs0 n _ hmem op ?_
      rw [cfd_entry_keep_dir lcs [] n cs hkeep]
      exact hop
  | step p cs n c hvp hkeep hmem ih =>
    constructor
    · intro op hdel hop
      have h1 : op ∈ (check_for_deletion_entry lcs p n c).1 := by
        rw [cfd_entry_del lcs p n c hdel]
        exact hop
      exact ih.2 cs rfl hkeep op (entry_ops_sub lcs p cs n c hmem op h1)
    · intro cs2 hceq hkeep2 op hop
      subst hceq
      have h1 : op ∈ (check_for_deletion_entry lcs p n (RNode.dir cs2)).1 := by
        rw [cfd_entry_keep_dir lcs p n cs2 hkeep2]
        exact hop
      exact ih.2 cs rfl hkeep op (entry_ops_sub lcs p cs n _ hmem op h1)

theorem cfd_ops_source (lcs : List (String × LNode))
    (rcs0 : List (String × RNode)) :
    (∀ (rel : List String) (rcs : List (String × RNode)),
      (∀ n c, (n, c) ∈ rcs → Visits lcs rcs0 (rel ++ [n]) c) →
      ∀ op ∈ (check_for_deletion lcs rel rcs).1,
        ∃ q c2, Visits lcs rcs0 q c2 ∧
          _must_be_deleted (findPath lcs q) (RNode.ftype c2) = true ∧
          op ∈ remote_delete q c2) ∧
    (∀ (rel : List String) (name : String) (child : RNode),
      Visits lcs rcs0 (rel ++ [name]) child →
      ∀ op ∈ (check_for_deletion_entry lcs rel name child).1,
        ∃ q c2, Visits lcs rcs0 q c2 ∧
          _must_be_deleted (findPath lcs q) (RNode.ftype c2) = true ∧
          op ∈ remote_delete q c2) := by
  refine check_for_deletion.mutual_induct lcs
    (fun rel rcs => (∀ n c, (n, c) ∈ rcs → Visits lcs rcs0 (rel ++ [n]) c) →
      ∀ op ∈ (check_for_deletion lcs rel rcs).1,
        ∃ q c2, Visits lcs rcs0 q c2 ∧
          _must_be_deleted (findPath lcs q) (RNode.ftype c2) = true ∧
          op ∈ remote_delete q c2)
    (fun rel name child => Visits lcs rcs0 (rel ++ [name]) child →
      ∀ op ∈ (check_for_deletion_entry lcs rel name child).1,
        ∃ q c2, Visits lcs rcs0 q c2 ∧
          _must_be_deleted (findPath lcs q) (RNode.ftype c2) = true ∧
          op ∈ remote_delete q c2)
    ?_ ?_ ?_ ?_ ?_ ?_ ?_
  · intro child rel name _ hlnk hdel hv op hop
    rw [cfd_entry_del lcs rel name child hdel] at hop
    exact ⟨rel ++ [name], child, hv, hdel, hop⟩
  · intro child rel name _ hlnk hdel hv op hop
    rw [cfd_entry_keep_lnk lcs rel name child hlnk (bool_off hdel)] at hop
    exact absurd hop (List.not_mem_nil op)
  · intro child rel name _ hlnk hdel hv op hop
    rw [cfd_entry_del lcs rel name child hdel] at hop
    exact ⟨rel ++ [name], child, hv, hdel, hop⟩
  · intro rel name _ cs hlnk hdel ih hv op hop
    rw [cfd_entry_keep_dir lcs rel name cs (bool_off hdel)] at hop
    refine ih ?_ op hop
    intro n2 c2 hmem2
    exact Visits.step (rel ++ [name]) cs n2 c2 hv (bool_off hdel) hmem2
  · intro child rel name _ hlnk hdel hnd hv op hop
    have hkeep : (check_for_deletion_entry lcs rel name child).1 = [] := by
      cases child with
      | dir cs => exact absurd rfl (hnd cs)
      | symlink t => exact absurd rfl hlnk
      | reg s m => rw [cfd_entry_keep_reg lcs rel name s m (bool_off hdel)]
      | other k => rw [cfd_entry_keep_other lcs rel name k (bool_off hdel)]
    rw [hkeep] at hop
    exact absurd hop (List.not_mem_nil op)
  · intro rel hemb op hop
    rw [cfd_nil] at hop
    exact absurd hop (List.not_mem_nil op)
  · intro rel n c rest ih1 ih2 hemb op hop
    rw [cfd_cons] at hop
    rcases List.mem_append.1 hop with h | h
    · exact ih1 (hemb n c (List.mem_cons_self _ _)) op h
    · exact ih2 (fun n2 c2 hm => hemb n2 c2 (List.mem_cons_of_mem _ hm)) op h

theorem prefix_total {α : Type} {l1 l2 l3 : List α}
    (h1 : l1 <+: l3) (h2 : l2 <+: l3) : l1 <+: l2 ∨ l2 <+: l1 :=
  List.prefix_or_prefix_of_prefix h1 h2

theorem strict_prefix_contra {lcs : List (String × LNode)}
    {rcs0 : List (String × RNode)}
    (hwf : (nodupKeys rcs0 && RNode.wfChildren rcs0) = true)
    {p : List String} {c : RNode} (hv : Visits lcs rcs0 p c)
    {q : List String} {c2 : RNode} (hvq : Visits lcs rcs0 q c2)
    (hmbdq : _must_be_deleted (findPath lcs q) (RNode.ftype c2) = true)
    (hqp : q <+: p) (hne : q ≠ p) : False := by
  obtain ⟨cs2, hvq2, hkeep⟩ := visits_prefix hv q hqp hne (visits_ne_nil hvq)
  have heq := visits_unique hwf hvq hvq2
  rw [heq] at hmbdq
  rw [hkeep] at hmbdq
  exact Bool.noConfusion hmbdq

theorem visits_deleted_iff (lcs : List (String × LNode))
    (rcs0 : List (String × RNode)) (p : List String) (c : RNode)
    (hwf : (nodupKeys rcs0 && RNode.wfChildren rcs0) = true)
    (hv : Visits lcs rcs0 p c) :
    (ROp.remove p ∈ (check_for_deletion lcs [] rcs0).1 ∨
     ROp.rmdir p ∈ (check_for_deletion lcs [] rcs0).1) ↔
    (findPath lcs p = none ∨
     ∃ l, findPath lcs p = some l ∧ LNode.ftype l ≠ RNode.ftype c) := by
  constructor
  · intro hdel
    by_contra hrhs
    have hmbd : _must_be_deleted (findPath lcs p) (RNode.ftype c) = false := by
      refine bool_off ?_
      intro htrue
      exact hrhs ((must_be_deleted_iff _ _).1 htrue)
    have hemb : ∀ n c3, (n, c3) ∈ rcs0 → Visits lcs rcs0 ([] ++ [n]) c3 :=
      fun n c3 hm => Visits.base n c3 hm
    have hsrc : ∃ q c2, Visits lcs rcs0 q c2 ∧
        _must_be_deleted (findPath lcs q) (RNode.ftype c2) = true ∧
        ∃ op0, op0 ∈ remote_delete q c2 ∧ ROp.path op0 = p := by
      rcases hdel with h | h
      · obtain ⟨q, c2, hvq, hm, hop⟩ :=
          (cfd_ops_source lcs rcs0).1 [] rcs0 hemb (ROp.remove p) h
        exact ⟨q, c2, hvq, hm, ROp.remove p, hop, rfl⟩
      · obtain ⟨q, c2, hvq, hm, hop⟩ :=
          (cfd_ops_source lcs rcs0).1 [] rcs0 hemb (ROp.rmdir p) h
        exact ⟨q, c2, hvq, hm, ROp.rmdir p, hop, rfl⟩
    obtain ⟨q, c2, hvq, hmbdq, op0, hop0, hpath⟩ := hsrc
    obtain ⟨tq, htq⟩ := remote_delete_path_shape.1 q c2 op0 hop0
    have hqp : q <+: p := by
      rw [hpath] at htq
      exact ⟨tq, htq.symm⟩
    by_cases hqe : q = p
    · subst hqe
      have := visits_unique hwf hvq hv
      rw [this] at hmbdq
      rw [hmbd] at hmbdq
      exact Bool.noConfusion hmbdq
    · exact strict_prefix_contra hwf hv hvq hmbdq hqp hqe
  · intro hrhs
    have hmbd : _must_be_deleted (findPath lcs p) (RNode.ftype c) = true :=
      (must_be_deleted_iff _ _).2 hrhs
    have hop := (visits_deleted_ops lcs rcs0 hv).1 (delOp p c) hmbd (delOp_mem p c)
    cases c with
    | dir cs => exact Or.inr hop
    | symlink t => exact Or.inl hop
    | reg s m => exact Or.inl hop
    | other k => exact Or.inl hop

/-! Claim C1. -/

/-- C1 counterexample: a local FIFO and a remote socket at the same path
have the same top-level type (both are in the other bucket of the four-way
classification the claim uses), yet the deletion pass deletes the remote
entry, because _must_be_deleted compares the full S_IFMT format bits, which
distinguish FIFOs from sockets. -/
theorem claim_C1_counterexample :
    (check_for_deletion [(("x"), LNode.other OtherKind.fifo)] []
       [(("x"), RNode.other OtherKind.sock)]).1 = [ROp.remove (["x"])] ∧
    FType.top4 (LNode.ftype (LNode.other OtherKind.fifo)) =
      FType.top4 (RNode.ftype (RNode.other OtherKind.sock)) ∧
    LNode.ftype (LNode.other OtherKind.fifo) ≠
      RNode.ftype (RNode.other OtherKind.sock) :=
  ⟨rfl, rfl, by decide⟩

/-- C1 amended: for every entry found while walking the remote tree (under
unique listing names), the deletion pass deletes the remote entry if and
only if either no local entry exists at the corresponding local path under
a non-following existence check (a broken local symlink counts as
existing), or a local entry exists but its exact stat file type (the S_IFMT
format bits, which distinguish directory, symlink, regular file, FIFO,
socket and device subtypes) differs from the remote entry's exact file
type. -/
theorem claim_C1 (lcs : List (String × LNode)) (rcs0 : List (String × RNode))
    (p : List String) (c : RNode)
    (hwf : (nodupKeys rcs0 && RNode.wfChildren rcs0) = true)
    (hv : Visits lcs rcs0 p c) :
    (ROp.remove p ∈ (check_for_deletion lcs [] rcs0).1 ∨
     ROp.rmdir p ∈ (check_for_deletion lcs [] rcs0).1) ↔
    (findPath lcs p = none ∨
     ∃ l, findPath lcs p = some l ∧ LNode.ftype l ≠ RNode.ftype c) :=
  visits_deleted_iff lcs rcs0 p c hwf hv

theorem claim_C1_witness :
    ROp.remove (["x"]) ∈
        (check_for_deletion [] [] [(("x"), RNode.reg 1 2)]).1 ∨
    ROp.rmdir (["x"]) ∈
        (check_for_deletion [] [] [(("x"), RNode.reg 1 2)]).1 :=
  (claim_C1 [] [(("x"), RNode.reg 1 2)] (["x"]) (RNode.reg 1 2) (by decide)
    (Visits.base ("x") (RNode.reg 1 2) (List.mem_cons_self _ _))).2 (Or.inl rfl)

/-! Claim C7. -/

theorem ftype_ne_lnk_iff_top4 (ft : FType) :
    ft ≠ FType.lnk ↔ FType.top4 ft ≠ Top4.lnk := by
  cases ft <;> decide

/-- C7: a remote entry that is a symlink is never recursed into during the
deletion pass: its deletion is decided solely by the presence and top-level
type of its local counterpart; when it is deleted only the link node itself
is removed (a remove of exactly its path, never an rmdir), and no operation
of the pass ever touches a path strictly below the symlink, so nothing the
link resolves to is ever deleted. -/
theorem claim_C7 (lcs : List (String × LNode)) (rcs0 : List (String × RNode))
    (p : List String) (t : String)
    (hwf : (nodupKeys rcs0 && RNode.wfChildren rcs0) = true)
    (hv : Visits lcs rcs0 p (RNode.symlink t)) :
    ((ROp.remove p ∈ (check_for_deletion lcs [] rcs0).1 ∨
      ROp.rmdir p ∈ (check_for_deletion lcs [] rcs0).1) ↔
     (findPath lcs p = none ∨
      ∃ l, findPath lcs p = some l ∧ FType.top4 (LNode.ftype l) ≠ Top4.lnk))
    ∧ (∀ op ∈ (check_for_deletion lcs [] rcs0).1,
        ROp.path op ≠ p → ¬(p <+: ROp.path op))
    ∧ ROp.rmdir p ∉ (check_for_deletion lcs [] rcs0).1 := by
  have hemb : ∀ n c3, (n, c3) ∈ rcs0 → Visits lcs rcs0 ([] ++ [n]) c3 :=
    fun n c3 hm => Visits.base n c3 hm
  refine ⟨?_, ?_, ?_⟩
  · have hbase := visits_deleted_iff lcs rcs0 p (RNode.symlink t) hwf hv
    rw [hbase]
    constructor
    · intro h
      rcases h with h | ⟨l, hl, hne⟩
      · exact Or.inl h
      · exact Or.inr ⟨l, hl, (ftype_ne_lnk_iff_top4 (LNode.ftype l)).1 hne⟩
    · intro h
      rcases h with h | ⟨l, hl, hne⟩
      · exact Or.inl h
      · exact Or.inr ⟨l, hl, (ftype_ne_lnk_iff_top4 (LNode.ftype l)).2 hne⟩
  · intro op hop hne hpre
    obtain ⟨q, c2, hvq, hmbdq, hopq⟩ :=
      (cfd_ops_source lcs rcs0).1 [] rcs0 hemb op hop
    obtain ⟨tq, htq⟩ := remote_delete_path_shape.1 q c2 op hopq
    have hqpath : q <+: ROp.path op := ⟨tq, htq.symm⟩
    rcases prefix_total hqpath hpre with hqp | hpq
    · -- q <+: p
      by_cases hqe : q = p
      · subst hqe
        have heq := visits_unique hwf hvq hv
        subst heq
        have : op = ROp.remove q := by
          have hred : remote_delete q (RNode.symlink t) = [ROp.remove q] := rfl
          rw [hred] at hopq
          simpa using hopq
        rw [this] at hne
        exact hne rfl
      · exact strict_prefix_contra hwf hv hvq hmbdq hqp hqe
    · -- p <+: q
      by_cases hpe : p = q
      · subst hpe
        have heq := visits_unique hwf hvq hv
        subst heq
        have : op = ROp.remove p := by
          have hred : remote_delete p (RNode.symlink t) = [ROp.remove p] := rfl
          rw [hred] at hopq
          simpa using hopq
        rw [this] at hne
        exact hne rfl
      · obtain ⟨cs2, hvp2, _⟩ :=
          visits_prefix hvq p hpq (fun h => hpe h) (visits_ne_nil hv)
        have heq := visits_unique hwf hv hvp2
        exact RNode.noConfusion heq
  · intro hop
    obtain ⟨q, c2, hvq, hmbdq, hopq⟩ :=
      (cfd_ops_source lcs rcs0).1 [] rcs0 hemb (ROp.rmdir p) hop
    obtain ⟨tq, htq⟩ := remote_delete_path_shape.1 q c2 (ROp.rmdir p) hopq
    have hqp : q <+: p := ⟨tq, htq.symm⟩
    by_cases hqe : q = p
    · subst hqe
      have heq := visits_unique hwf hvq hv
      subst heq
      have hred : remote_delete q (RNode.symlink t) = [ROp.remove q] := rfl
      rw [hred] at hopq
      simp at hopq
    · exact strict_prefix_contra hwf hv hvq hmbdq hqp hqe

theorem claim_C7_witness :
    ROp.rmdir (["s"]) ∉
      (check_for_deletion [] [] [(("s"), RNode.symlink ("t"))]).1 :=
  (claim_C7 [] [(("s"), RNode.symlink ("t"))] (["s"]) ("t") (by decide)
    (Visits.base ("s") (RNode.symlink ("t")) (List.mem_cons_self _ _))).2.2

/-! Claim C9 machinery: invariants tying the remote tree to the local tree. -/

mutual

/-- Well-formed local node: every directory listing below it has unique
names (true of any tree produced by os.listdir). -/
def LNode.wfB : LNode → Bool
  | LNode.dir _ cs => nodupKeys cs && LNode.wfChildren cs
  | _ => true

def LNode.wfChildren : List (String × LNode) → Bool
  | [] => true
  | (_, c) :: rest => LNode.wfB c && LNode.wfChildren rest

end

mutual

/-- The remote node c is governed by the local node l: equal stat types,
and for a directory every remote child is in turn governed by a local child
of the same name.  After the deletion pass every surviving remote node is
governed by its local counterpart, which is exactly what makes the second
run's deletion pass a no-op. -/
def NodeMatch (l : LNode) (c : RNode) : Prop :=
  LNode.ftype l = RNode.ftype c ∧
  (∀ cs2, c = RNode.dir cs2 → ∀ m lcs2, l = LNode.dir m lcs2 →
    MatchesR lcs2 cs2)
termination_by sizeOf c
decreasing_by
  subst_vars
  simp

def MatchesR (sub : List (String × LNode)) (rcs : List (String × RNode)) : Prop :=
  ∀ e ∈ rcs, ∃ l, lookupName sub e.1 = some l ∧ NodeMatch l e.2
termination_by sizeOf rcs
decreasing_by
  rename_i hmem
  have h1 := List.sizeOf_lt_of_mem hmem
  cases e
  simp at h1 ⊢
  omega

end

mutual

/-- Creation-synchronization of one local child with the remote children
of its parent: unless excluded, a local directory has a remote directory
with recursively synchronized content, a local regular file has a remote
file holding the local size and the truncated local mtime, and a local
symlink whose policy yields a destination has a remote symlink holding that
destination. -/
def CSyncedEntry (fix : Bool) (excl : List String) (lp rp : String)
    (rel : List String) (e : String × LNode)
    (rcs : List (String × RNode)) : Prop :=
  localAbs lp (rel ++ [e.1]) ∉ excl →
    (∀ m lcs2, e.2 = LNode.dir m lcs2 →
      ∃ cs2, lookupName rcs e.1 = some (RNode.dir cs2) ∧
        CSynced fix excl lp rp (rel ++ [e.1]) lcs2 cs2) ∧
    (∀ m s t, e.2 = LNode.reg m s t →
      lookupName rcs e.1 = some (RNode.reg s (Mtime.toInt t))) ∧
    (∀ raw res d, e.2 = LNode.symlink raw res →
      symlink_destination fix lp rp raw res = some d →
      lookupName rcs e.1 = some (RNode.symlink d))
termination_by sizeOf e.2
decreasing_by
  rename_i h
  rw [h]
  simp

/-- The remote children rcs are creation-synchronized with the local
children sub below the relative path rel. -/
def CSynced (fix : Bool) (excl : List String) (lp rp : String)
    (rel : List String) (sub : List (String × LNode))
    (rcs : List (String × RNode)) : Prop :=
  ∀ e ∈ sub, CSyncedEntry fix excl lp rp rel e rcs
termination_by sizeOf sub
decreasing_by
  rename_i hmem
  have h1 := List.sizeOf_lt_of_mem hmem
  cases e
  simp at h1 ⊢
  omega

end

theorem lookup_mem {α : Type} {cs : List (String × α)} {n : String} {v : α}
    (h : lookupName cs n = some v) : (n, v) ∈ cs := by
  induction cs with
  | nil => exact Option.noConfusion h
  | cons e rest ih =>
    obtain ⟨m, w⟩ := e
    rw [lookupName] at h
    by_cases hmn : m = n
    · rw [if_pos hmn] at h
      rw [← hmn, Option.some.inj h]
      exact List.mem_cons_self _ _
    · rw [if_neg hmn] at h
      exact List.mem_cons_of_mem _ (ih h)

theorem lookup_setEntry_self {α : Type} (cs : List (String × α)) (n : String)
    (v : α) : lookupName (setEntry cs n v) n = some v := by
  induction cs with
  | nil => rw [setEntry, lookupName, if_pos rfl]
  | cons e rest ih =>
    obtain ⟨m, w⟩ := e
    rw [setEntry]
    by_cases hmn : m = n
    · rw [if_pos hmn, lookupName, if_pos rfl]
    · rw [if_neg hmn, lookupName, if_neg hmn]
      exact ih

theorem lookup_setEntry_other {α : Type} (cs : List (String × α)) (n g : String)
    (v : α) (hne : g ≠ n) :
    lookupName (setEntry cs n v) g = lookupName cs g := by
  induction cs with
  | nil =>
    rw [setEntry, lookupName, lookupName, if_neg (fun h => hne h.symm)]
    rfl
  | cons e rest ih =>
    obtain ⟨m, w⟩ := e
    rw [setEntry]
    by_cases hmn : m = n
    · subst hmn
      rw [if_pos rfl, lookupName, lookupName,
        if_neg (fun h => hne h.symm), if_neg (fun h => hne h.symm)]
    · rw [if_neg hmn, lookupName, lookupName]
      by_cases hmg : m = g
      · rw [if_pos hmg, if_pos hmg]
      · rw [if_neg hmg, if_neg hmg]
        exact ih

theorem mem_setEntry {α : Type} {cs : List (String × α)} {n : String} {v : α}
    {e : String × α} (h : e ∈ setEntry cs n v) : e = (n, v) ∨ e ∈ cs := by
  induction cs with
  | nil =>
    rw [setEntry] at h
    rcases List.mem_cons.1 h with h2 | h2
    · exact Or.inl h2
    · exact absurd h2 (List.not_mem_nil e)
  | cons e2 rest ih =>
    obtain ⟨m, w⟩ := e2
    rw [setEntry] at h
    by_cases hmn : m = n
    · rw [if_pos hmn] at h
      rcases List.mem_cons.1 h with h2 | h2
      · exact Or.inl h2
      · exact Or.inr (List.mem_cons_of_mem _ h2)
    · rw [if_neg hmn] at h
      rcases List.mem_cons.1 h with h2 | h2
      · exact Or.inr (h2 ▸ List.mem_cons_self _ _)
      · rcases ih h2 with h3 | h3
        · exact Or.inl h3
        · exact Or.inr (List.mem_cons_of_mem _ h3)

theorem must_be_deleted_false_iff (lopt : Option LNode) (rt : FType) :
    _must_be_deleted lopt rt = false ↔
      ∃ l, lopt = some l ∧ LNode.ftype l = rt := by
  cases lopt with
  | none => simp [_must_be_deleted]
  | some l =>
    rw [_must_be_deleted]
    by_cases h : LNode.ftype l = rt
    · simp [h]
    · simp [h]

theorem match_modes_filter (ch : Bool) (p : List String) (meta : LMeta) :
    (_match_modes ch p meta).filter ROp.isChange = [] := by
  cases ch <;> rfl

theorem file_need_upload_refl (s : Nat) (t : Mtime) :
    _file_need_upload s t s (Mtime.toInt t) = false := by
  rw [_file_need_upload, if_neg]
  intro h
  rcases h with h | h
  · exact h rfl
  · exact h rfl

theorem findPath_sub (n : String) :
    ∀ (rel : List String) (lcs sub : List (String × LNode)),
      subAt lcs rel = some sub →
      findPath lcs (rel ++ [n]) = lookupName sub n := by
  intro rel
  induction rel with
  | nil =>
    intro lcs sub h
    rw [subAt] at h
    rw [Option.some.inj h]
    rfl
  | cons m rel2 ih =>
    intro lcs sub h
    rw [subAt] at h
    cases hl : lookupName lcs m with
    | none =>
      rw [hl] at h
      exact Option.noConfusion h
    | some l =>
      rw [hl] at h
      cases l with
      | dir m2 cs =>
        have hsub : subAt cs rel2 = some sub := h
        cases rel2 with
        | nil =>
          show findPath lcs [m, n] = _
          rw [show findPath lcs [m, n] =
            (match lookupName lcs m with
             | some (LNode.dir _ cs2) => findPath cs2 [n]
             | _ => none) from rfl, hl]
          rw [subAt] at hsub
          rw [Option.some.inj hsub]
          rfl
        | cons a rel3 =>
          rw [show ((m :: a :: rel3) ++ [n]) = m :: ((a :: rel3) ++ [n]) from rfl]
          rw [show findPath lcs (m :: ((a :: rel3) ++ [n])) =
            (match lookupName lcs m with
             | some (LNode.dir _ cs2) => findPath cs2 ((a :: rel3) ++ [n])
             | _ => none) from rfl, hl]
          exact ih cs sub hsub
      | symlink a b => exact Option.noConfusion h
      | reg a b c => exact Option.noConfusion h
      | other k => exact Option.noConfusion h

theorem subAt_snoc :
    ∀ (rel : List String) (lcs sub : List (String × LNode)),
      subAt lcs rel = some sub →
      ∀ (nm : String) (m2 : LMeta) (lcs2 : List (String × LNode)),
        lookupName sub nm = some (LNode.dir m2 lcs2) →
        subAt lcs (rel ++ [nm]) = some lcs2 := by
  intro rel
  induction rel with
  | nil =>
    intro lcs sub h nm m2 lcs2 hlk
    rw [subAt] at h
    rw [← Option.some.inj h] at hlk
    rw [List.nil_append, subAt, hlk]
    rfl
  | cons m rel2 ih =>
    intro lcs sub h nm m2 lcs2 hlk
    rw [subAt] at h
    cases hl : lookupName lcs m with
    | none =>
      rw [hl] at h
      exact Option.noConfusion h
    | some l =>
      rw [hl] at h
      cases l with
      | dir m3 cs =>
        rw [show ((m :: rel2) ++ [nm]) = m :: (rel2 ++ [nm]) from rfl]
        rw [subAt, hl]
        exact ih cs sub h nm m2 lcs2 hlk
      | symlink a b => exact Option.noConfusion h
      | reg a b c => exact Option.noConfusion h
      | other k => exact Option.noConfusion h

theorem deletion_matches (lcs : List (String × LNode)) :
    (∀ (rel : List String) (rcs : List (String × RNode))
      (sub : List (String × LNode)), subAt lcs rel = some sub →
      MatchesR sub (check_for_deletion lcs rel rcs).2) ∧
    (∀ (rel : List String) (name : String) (child : RNode)
      (sub : List (String × LNode)), subAt lcs rel = some sub →
      ∀ e ∈ (check_for_deletion_entry lcs rel name child).2,
        ∃ l, lookupName sub e.1 = some l ∧ NodeMatch l e.2) := by
  refine check_for_deletion.mutual_induct lcs
    (fun rel rcs => ∀ sub, subAt lcs rel = some sub →
      MatchesR sub (check_for_deletion lcs rel rcs).2)
    (fun rel name child => ∀ sub, subAt lcs rel = some sub →
      ∀ e ∈ (check_for_deletion_entry lcs rel name child).2,
        ∃ l, lookupName sub e.1 = some l ∧ NodeMatch l e.2)
    ?_ ?_ ?_ ?_ ?_ ?_ ?_
  · intro child rel name _ hlnk hdel sub hsub e he
    rw [cfd_entry_del lcs rel name child hdel] at he
    exact absurd he (List.not_mem_nil e)
  · intro child rel name _ hlnk hdel sub hsub e he
    rw [cfd_entry_keep_lnk lcs rel name child hlnk (bool_off hdel)] at he
    simp only [List.mem_cons, List.not_mem_nil, or_false] at he
    subst he
    obtain ⟨l, hfp, hft⟩ := (must_be_deleted_false_iff _ _).1 (bool_off hdel)
    have hfp2 : findPath lcs (rel ++ [name]) = some l := hfp
    rw [findPath_sub name rel lcs sub hsub] at hfp2
    refine ⟨l, hfp2, ?_⟩
    rw [NodeMatch]
    refine ⟨hft, ?_⟩
    intro cs2 hc
    have hc2 : child = RNode.dir cs2 := hc
    rw [hc2] at hlnk
    exact absurd hlnk (fun h => FType.noConfusion h)
  · intro child rel name _ hlnk hdel sub hsub e he
    rw [cfd_entry_del lcs rel name child hdel] at he
    exact absurd he (List.not_mem_nil e)
  · intro rel name _ cs hlnk hdel ih sub hsub e he
    rw [cfd_entry_keep_dir lcs rel name cs (bool_off hdel)] at he
    simp only [List.mem_cons, List.not_mem_nil, or_false] at he
    subst he
    obtain ⟨l, hfp, hft⟩ := (must_be_deleted_false_iff _ _).1 (bool_off hdel)
    have hfp2 : findPath lcs (rel ++ [name]) = some l := hfp
    rw [findPath_sub name rel lcs sub hsub] at hfp2
    cases l with
    | dir m lcs2 =>
      refine ⟨LNode.dir m lcs2, hfp2, ?_⟩
      rw [NodeMatch]
      refine ⟨hft, ?_⟩
      intro cs2 hc m2 lcs3 hl
      have hc2 : RNode.dir (check_for_deletion lcs (rel ++ [name]) cs).2 =
          RNode.dir cs2 := hc
      have hcs2 : cs2 = (check_for_deletion lcs (rel ++ [name]) cs).2 :=
        (RNode.dir.injEq .. ▸ hc2).symm
      have hl2 : LNode.dir m lcs2 = LNode.dir m2 lcs3 := hl
      have hlcs : lcs2 = lcs3 := (LNode.dir.injEq .. ▸ hl2).2
      rw [hcs2, ← hlcs]
      exact ih lcs2 (subAt_snoc rel lcs sub hsub name m lcs2 hfp2)
    | symlink a b => exact absurd hft (fun h => FType.noConfusion h)
    | reg a b c => exact absurd hft (fun h => FType.noConfusion h)
    | other k => exact absurd hft (by cases k <;> exact fun h => FType.noConfusion h)
  · intro child rel name _ hlnk hdel hnd sub hsub e he
    have hkeep : (check_for_deletion_entry lcs rel name child).2 =
        [(name, child)] := by
      cases child with
      | dir cs => exact absurd rfl (hnd cs)
      | symlink t => exact absurd rfl hlnk
      | reg s m => rw [cfd_entry_keep_reg lcs rel name s m (bool_off hdel)]
      | other k => rw [cfd_entry_keep_other lcs rel name k (bool_off hdel)]
    rw [hkeep] at he
    simp only [List.mem_cons, List.not_mem_nil, or_false] at he
    subst he
    obtain ⟨l, hfp, hft⟩ := (must_be_deleted_false_iff _ _).1 (bool_off hdel)
    have hfp2 : findPath lcs (rel ++ [name]) = some l := hfp
    rw [findPath_sub name rel lcs sub hsub] at hfp2
    refine ⟨l, hfp2, ?_⟩
    rw [NodeMatch]
    refine ⟨hft, ?_⟩
    intro cs2 hc
    exact absurd (show child = RNode.dir cs2 from hc) (fun h => hnd cs2 h)
  · intro rel sub hsub
    rw [cfd_nil, MatchesR]
    intro e he
    exact absurd he (List.not_mem_nil e)
  · intro rel n c rest ih1 ih2 sub hsub
    rw [cfd_cons, MatchesR]
    intro e he
    rcases List.mem_append.1 he with h | h
    · exact ih1 sub hsub e h
    · have := ih2 sub hsub
      rw [MatchesR] at this
      exact this e h

theorem deletion_noop (lcs : List (String × LNode)) :
    (∀ (rel : List String) (rcs : List (String × RNode))
      (sub : List (String × LNode)), subAt lcs rel = some sub →
      MatchesR sub rcs → check_for_deletion lcs rel rcs = ([], rcs)) ∧
    (∀ (rel : List String) (name : String) (child : RNode)
      (sub : List (String × LNode)), subAt lcs rel = some sub →
      (∃ l, lookupName sub name = some l ∧ NodeMatch l child) →
      check_for_deletion_entry lcs rel name child = ([], [(name, child)])) := by
  refine check_for_deletion.mutual_induct lcs
    (fun rel rcs => ∀ sub, subAt lcs rel = some sub →
      MatchesR sub rcs → check_for_deletion lcs rel rcs = ([], rcs))
    (fun rel name child => ∀ sub, subAt lcs rel = some sub →
      (∃ l, lookupName sub name = some l ∧ NodeMatch l child) →
      check_for_deletion_entry lcs rel name child = ([], [(name, child)]))
    ?_ ?_ ?_ ?_ ?_ ?_ ?_
  · intro child rel name _ hlnk hdel sub hsub hcl
    obtain ⟨l, hlk, hm⟩ := hcl
    rw [NodeMatch] at hm
    have hfalse : _must_be_deleted (findPath lcs (rel ++ [name]))
        (RNode.ftype child) = false :=
      (must_be_deleted_false_iff _ _).2
        ⟨l, by rw [findPath_sub name rel lcs sub hsub]; exact hlk, hm.1⟩
    have hdel2 : _must_be_deleted (findPath lcs (rel ++ [name]))
        (RNode.ftype child) = true := hdel
    rw [hfalse] at hdel2
    exact Bool.noConfusion hdel2
  · intro child rel name _ hlnk hdel sub hsub hcl
    exact cfd_entry_keep_lnk lcs rel name child hlnk (bool_off hdel)
  · intro child rel name _ hlnk hdel sub hsub hcl
    obtain ⟨l, hlk, hm⟩ := hcl
    rw [NodeMatch] at hm
    have hfalse : _must_be_deleted (findPath lcs (rel ++ [name]))
        (RNode.ftype child) = false :=
      (must_be_deleted_false_iff _ _).2
        ⟨l, by rw [findPath_sub name rel lcs sub hsub]; exact hlk, hm.1⟩
    have hdel2 : _must_be_deleted (findPath lcs (rel ++ [name]))
        (RNode.ftype child) = true := hdel
    rw [hfalse] at hdel2
    exact Bool.noConfusion hdel2
  · intro rel name _ cs hlnk hdel ih sub hsub hcl
    obtain ⟨l, hlk, hm⟩ := hcl
    rw [NodeMatch] at hm
    cases l with
    | dir m lcs2 =>
      have hmr : MatchesR lcs2 cs := hm.2 cs rfl m lcs2 rfl
      have hsub2 : subAt lcs (rel ++ [name]) = some lcs2 :=
        subAt_snoc rel lcs sub hsub name m lcs2 hlk
      have hinner := ih lcs2 hsub2 hmr
      rw [cfd_entry_keep_dir lcs rel name cs (bool_off hdel), hinner]
    | symlink a b => exact absurd hm.1 (fun h => FType.noConfusion h)
    | reg a b c => exact absurd hm.1 (fun h => FType.noConfusion h)
    | other k => exact absurd hm.1 (by cases k <;> exact fun h => FType.noConfusion h)
  · intro child rel name _ hlnk hdel hnd sub hsub hcl
    cases child with
    | dir cs => exact absurd rfl (hnd cs)
    | symlink t => exact absurd rfl hlnk
    | reg s m => exact cfd_entry_keep_reg lcs rel name s m (bool_off hdel)
    | other k => exact cfd_entry_keep_other lcs rel name k (bool_off hdel)
  · intro rel sub hsub hmr
    exact cfd_nil lcs rel
  · intro rel n c rest ih1 ih2 sub hsub hmr
    rw [MatchesR] at hmr
    have hhead := ih1 sub hsub (hmr (n, c) (List.mem_cons_self _ _))
    have htail := ih2 sub hsub (by
      rw [MatchesR]
      intro e he
      exact hmr e (List.mem_cons_of_mem _ he))
    rw [cfd_cons, hhead, htail]
    rfl

theorem lwfB_of_mem {cs : List (String × LNode)} {n : String} {c : LNode}
    (hmem : (n, c) ∈ cs) (hwf : LNode.wfChildren cs = true) :
    LNode.wfB c = true := by
  induction cs with
  | nil => exact absurd hmem (List.not_mem_nil _)
  | cons e rest ih =>
    obtain ⟨m, c2⟩ := e
    rw [LNode.wfChildren] at hwf
    rcases Bool.and_eq_true .. ▸ hwf with ⟨h1, h2⟩
    rcases List.mem_cons.1 hmem with heq | hrest
    · obtain ⟨hn, hc⟩ := Prod.mk.injEq .. ▸ heq
      rw [← hc] at h1
      exact h1
    · exact ih hrest h2

theorem matchesR_LP {sub : List (String × LNode)} {rcs : List (String × RNode)}
    (hnd : nodupKeys sub = true) (hm : MatchesR sub rcs) :
    ∀ e ∈ sub, ∀ c, lookupName rcs e.1 = some c → NodeMatch e.2 c := by
  intro e he c hc
  rw [MatchesR] at hm
  obtain ⟨l2, hlk2, hnm⟩ := hm (e.1, c) (lookup_mem hc)
  have hle : lookupName sub e.1 = some e.2 := by
    obtain ⟨n, l⟩ := e
    exact lookup_of_mem_nodup he hnd
  rw [hle] at hlk2
  rw [← Option.some.inj hlk2] at hnm
  exact hnm

theorem matchesR_assemble {sub : List (String × LNode)}
    {rcs rcs2 : List (String × RNode)}
    (hnd : nodupKeys sub = true) (hm : MatchesR sub rcs)
    (h3 : ∀ e ∈ rcs2, e ∈ rcs ∨ ∃ l2, (e.1, l2) ∈ sub ∧ NodeMatch l2 e.2) :
    MatchesR sub rcs2 := by
  rw [MatchesR]
  intro e he
  rcases h3 e he with h | ⟨l2, hmem, hnm⟩
  · rw [MatchesR] at hm
    exact hm e h
  · exact ⟨l2, lookup_of_mem_nodup hmem hnd, hnm⟩

theorem matchesR_nil (sub : List (String × LNode)) : MatchesR sub [] := by
  rw [MatchesR]
  intro e he
  exact absurd he (List.not_mem_nil e)

theorem csynced_entry_transport {fix : Bool} {excl : List String}
    {lp rp : String} {rel : List String} {e : String × LNode}
    {rcs rcs2 : List (String × RNode)}
    (hleq : lookupName rcs2 e.1 = lookupName rcs e.1)
    (h : CSyncedEntry fix excl lp rp rel e rcs) :
    CSyncedEntry fix excl lp rp rel e rcs2 := by
  rw [CSyncedEntry] at h ⊢
  intro hnotex
  obtain ⟨h1, h2, h3⟩ := h hnotex
  refine ⟨?_, ?_, ?_⟩
  · intro m lcs2 hl
    obtain ⟨cs2, hlk, hcs⟩ := h1 m lcs2 hl
    exact ⟨cs2, by rw [hleq]; exact hlk, hcs⟩
  · intro m s t hl
    rw [hleq]
    exact h2 m s t hl
  · intro raw res d hl hd
    rw [hleq]
    exact h3 raw res d hl hd

theorem creation_sound (fix ch : Bool) (excl : List String) (lp rp : String) :
    (∀ (rel : List String) (f : String) (l : LNode)
      (rcs : List (String × RNode)),
      LNode.wfB l = true →
      (∀ c, lookupName rcs f = some c → NodeMatch l c) →
      ∃ ops rcs2,
        node_check_for_upload_create fix ch excl lp rp rel f l rcs =
          Except.ok (ops, rcs2) ∧
        (∀ g, g ≠ f → lookupName rcs2 g = lookupName rcs g) ∧
        (∀ e ∈ rcs2, e ∈ rcs ∨ (e.1 = f ∧ NodeMatch l e.2)) ∧
        CSyncedEntry fix excl lp rp rel (f, l) rcs2) ∧
    (∀ (rel : List String) (lcs2 : List (String × LNode))
      (rcs : List (String × RNode)),
      (nodupKeys lcs2 && LNode.wfChildren lcs2) = true →
      (∀ e ∈ lcs2, ∀ c, lookupName rcs e.1 = some c → NodeMatch e.2 c) →
      ∃ ops rcs2,
        check_for_upload_create fix ch excl lp rp rel lcs2 rcs =
          Except.ok (ops, rcs2) ∧
        (∀ g, (∀ l2, (g, l2) ∉ lcs2) → lookupName rcs2 g = lookupName rcs g) ∧
        (∀ e ∈ rcs2, e ∈ rcs ∨ ∃ l2, (e.1, l2) ∈ lcs2 ∧ NodeMatch l2 e.2) ∧
        CSynced fix excl lp rp rel lcs2 rcs2) := by
  refine node_check_for_upload_create.mutual_induct fix ch excl lp rp
    (fun rel f l rcs =>
      LNode.wfB l = true →
      (∀ c, lookupName rcs f = some c → NodeMatch l c) →
      ∃ ops rcs2,
        node_check_for_upload_create fix ch excl lp rp rel f l rcs =
          Except.ok (ops, rcs2) ∧
        (∀ g, g ≠ f → lookupName rcs2 g = lookupName rcs g) ∧
        (∀ e ∈ rcs2, e ∈ rcs ∨ (e.1 = f ∧ NodeMatch l e.2)) ∧
        CSyncedEntry fix excl lp rp rel (f, l) rcs2)
    (fun rel lcs2 rcs =>
      (nodupKeys lcs2 && LNode.wfChildren lcs2) = true →
      (∀ e ∈ lcs2, ∀ c, lookupName rcs e.1 = some c → NodeMatch e.2 c) →
      ∃ ops rcs2,
        check_for_upload_create fix ch excl lp rp rel lcs2 rcs =
          Except.ok (ops, rcs2) ∧
        (∀ g, (∀ l2, (g, l2) ∉ lcs2) → lookupName rcs2 g = lookupName rcs g) ∧
        (∀ e ∈ rcs2, e ∈ rcs ∨ ∃ l2, (e.1, l2) ∈ lcs2 ∧ NodeMatch l2 e.2) ∧
        CSynced fix excl lp rp rel lcs2 rcs2)
    ?_ ?_ ?_ ?_ ?_ ?_ ?_ ?_ ?_ ?_ ?_ ?_ ?_ ?_ ?_ ?_ ?_
  · -- excluded
    intro l rel f rcs hex hwf hlp
    refine ⟨[], rcs, ncu_excluded fix ch excl lp rp rel f l rcs hex,
      fun g _ => rfl, fun e he => Or.inl he, ?_⟩
    rw [CSyncedEntry]
    intro hnotex
    exact absurd hex hnotex
  · -- directory, remote directory present, recursion succeeds
    intro rel f rcs hex meta children rcs2In hlk ops1 rcs3 hok ih hwf hlp
    rw [LNode.wfB] at hwf
    have hmr : MatchesR children rcs2In := by
      have hnm := hlp (RNode.dir rcs2In) hlk
      rw [NodeMatch] at hnm
      exact hnm.2 rcs2In rfl meta children rfl
    rcases Bool.and_eq_true .. ▸ hwf with ⟨hnd, hwc⟩
    obtain ⟨ops2, rcs2Out, hok2, hloc2, hmem2, hcs2⟩ :=
      ih (by rw [hnd, hwc]; rfl) (matchesR_LP hnd hmr)
    refine ⟨_, _,
      ncu_dir_found fix ch excl lp rp rel f meta children rcs rcs2In hex hlk
        ops2 rcs2Out hok2, ?_, ?_, ?_⟩
    · intro g hg
      exact lookup_setEntry_other rcs f g (RNode.dir rcs2Out) hg
    · intro e he
      rcases mem_setEntry he with heq | hin
      · refine Or.inr ⟨by rw [heq], ?_⟩
        rw [heq, NodeMatch]
        refine ⟨rfl, ?_⟩
        intro cs2 hc m2 lcs2 hl
        have hc2 : RNode.dir rcs2Out = RNode.dir cs2 := hc
        have hl2 : LNode.dir meta children = LNode.dir m2 lcs2 := hl
        rw [← RNode.dir.inj hc2, ← (LNode.dir.inj hl2).2]
        exact matchesR_assemble hnd hmr hmem2
      · exact Or.inl hin
    · rw [CSyncedEntry]
      intro hnotex
      refine ⟨?_, ?_, ?_⟩
      · intro m2 lcs2 hl
        have hl2 : LNode.dir meta children = LNode.dir m2 lcs2 := hl
        refine ⟨rcs2Out, lookup_setEntry_self rcs f (RNode.dir rcs2Out), ?_⟩
        rw [← (LNode.dir.inj hl2).2]
        exact hcs2
      · intro m2 s t hl
        exact absurd (show LNode.dir meta children = LNode.reg m2 s t from hl)
          (fun h => LNode.noConfusion h)
      · intro raw res d hl hd
        exact absurd (show LNode.dir meta children = LNode.symlink raw res from hl)
          (fun h => LNode.noConfusion h)
  · -- directory, remote directory present, recursion fails (impossible)
    intro rel f rcs hex meta children rcs2In hlk e herr ih hwf hlp
    rw [LNode.wfB] at hwf
    have hmr : MatchesR children rcs2In := by
      have hnm := hlp (RNode.dir rcs2In) hlk
      rw [NodeMatch] at hnm
      exact hnm.2 rcs2In rfl meta children rfl
    rcases Bool.and_eq_true .. ▸ hwf with ⟨hnd, hwc⟩
    obtain ⟨ops2, rcs2Out, hok2, _, _, _⟩ :=
      ih (by rw [hnd, hwc]; rfl) (matchesR_LP hnd hmr)
    rw [herr] at hok2
    exact absurd hok2 (fun h => Except.noConfusion h)
  · -- directory, remote non-directory present (impossible under NodeMatch)
    intro rel f rcs hex meta children v hnd hlk hwf hlp
    have hnm := hlp v hlk
    rw [NodeMatch] at hnm
    have hft := hnm.1
    cases v with
    | dir cs => exact absurd rfl (fun h => hnd cs h)
    | symlink t => exact absurd hft (fun h => FType.noConfusion h)
    | reg s m => exact absurd hft (fun h => FType.noConfusion h)
    | other k =>
      exact absurd hft (by cases k <;> exact fun h => FType.noConfusion h)
  · -- directory, no remote node, recursion succeeds
    intro rel f rcs hex meta children hlk ops1 rcs3 hok ih hwf hlp
    rw [LNode.wfB] at hwf
    rcases Bool.and_eq_true .. ▸ hwf with ⟨hnd, hwc⟩
    obtain ⟨ops2, rcs2Out, hok2, hloc2, hmem2, hcs2⟩ :=
      ih (by rw [hnd, hwc]; rfl)
        (fun e he c hc => absurd hc (fun h => Option.noConfusion h))
    refine ⟨_, _,
      ncu_dir_absent fix ch excl lp rp rel f meta children rcs hex hlk
        ops2 rcs2Out hok2, ?_, ?_, ?_⟩
    · intro g hg
      exact lookup_setEntry_other rcs f g (RNode.dir rcs2Out) hg
    · intro e he
      rcases mem_setEntry he with heq | hin
      · refine Or.inr ⟨by rw [heq], ?_⟩
        rw [heq, NodeMatch]
        refine ⟨rfl, ?_⟩
        intro cs2 hc m2 lcs2 hl
        have hc2 : RNode.dir rcs2Out = RNode.dir cs2 := hc
        have hl2 : LNode.dir meta children = LNode.dir m2 lcs2 := hl
        rw [← RNode.dir.inj hc2, ← (LNode.dir.inj hl2).2]
        exact matchesR_assemble hnd (matchesR_nil children) hmem2
      · exact Or.inl hin
    · rw [CSyncedEntry]
      intro hnotex
      refine ⟨?_, ?_, ?_⟩
      · intro m2 lcs2 hl
        have hl2 : LNode.dir meta children = LNode.dir m2 lcs2 := hl
        refine ⟨rcs2Out, lookup_setEntry_self rcs f (RNode.dir rcs2Out), ?_⟩
        rw [← (LNode.dir.inj hl2).2]
        exact hcs2
      · intro m2 s t hl
        exact absurd (show LNode.dir meta children = LNode.reg m2 s t from hl)
          (fun h => LNode.noConfusion h)
      · intro raw res d hl hd
        exact absurd (show LNode.dir meta children = LNode.symlink raw res from hl)
          (fun h => LNode.noConfusion h)
  · -- directory, no remote node, recursion fails (impossible)
    intro rel f rcs hex meta children hlk e herr ih hwf hlp
    rw [LNode.wfB] at hwf
    rcases Bool.and_eq_true .. ▸ hwf with ⟨hnd, hwc⟩
    obtain ⟨ops2, rcs2Out, hok2, _, _, _⟩ :=
      ih (by rw [hnd, hwc]; rfl)
        (fun e2 he c hc => absurd hc (fun h => Option.noConfusion h))
    rw [herr] at hok2
    exact absurd hok2 (fun h => Except.noConfusion h)
  · -- symlink with no destination
    intro rel f rcs hex raw res hd hwf hlp
    refine ⟨[], rcs, ncu_symlink_none fix ch excl lp rp rel f raw res rcs hex hd,
      fun g _ => rfl, fun e he => Or.inl he, ?_⟩
    rw [CSyncedEntry]
    intro hnotex
    refine ⟨?_, ?_, ?_⟩
    · intro m lcs2 hl
      exact absurd (show LNode.symlink raw res = LNode.dir m lcs2 from hl)
        (fun h => LNode.noConfusion h)
    · intro m s t hl
      exact absurd (show LNode.symlink raw res = LNode.reg m s t from hl)
        (fun h => LNode.noConfusion h)
    · intro raw2 res2 d hl hd2
      have hl2 : LNode.symlink raw res = LNode.symlink raw2 res2 := hl
      obtain ⟨hr1, hr2⟩ := LNode.symlink.inj hl2
      rw [← hr1, ← hr2] at hd2
      rw [hd] at hd2
      exact absurd hd2 (fun h => Option.noConfusion h)
  · -- symlink with a destination
    intro rel f rcs hex raw res dest hd hwf hlp
    have hmain : ∃ ops,
        node_check_for_upload_create fix ch excl lp rp rel f
          (LNode.symlink raw res) rcs =
          Except.ok (ops, setEntry rcs f (RNode.symlink dest)) := by
      cases hcur : lookupName rcs f with
      | none =>
        refine ⟨[ROp.symlinkTo dest (rel ++ [f])], ?_⟩
        rw [ncu_symlink_some fix ch excl lp rp rel f raw res dest rcs hex hd,
          hcur]
        rfl
      | some c =>
        have hnm := hlp c hcur
        rw [NodeMatch] at hnm
        have hft := hnm.1
        cases c with
        | dir cs => exact absurd hft (fun h => FType.noConfusion h)
        | reg s m => exact absurd hft (fun h => FType.noConfusion h)
        | other k =>
          exact absurd hft (by cases k <;> exact fun h => FType.noConfusion h)
        | symlink t =>
          by_cases hdt : dest = t
          · subst hdt
            refine ⟨[], ?_⟩
            rw [ncu_symlink_some fix ch excl lp rp rel f raw res dest rcs hex hd,
              hcur]
            rw [show create_update_symlink dest (rel ++ [f])
              (some (RNode.symlink dest)) =
              if dest ≠ dest then
                ([ROp.remove (rel ++ [f]), ROp.symlinkTo dest (rel ++ [f])],
                  some (RNode.symlink dest))
              else ([], some (RNode.symlink dest)) from rfl,
              if_neg (fun h => h rfl)]
          · refine ⟨[ROp.remove (rel ++ [f]), ROp.symlinkTo dest (rel ++ [f])], ?_⟩
            rw [ncu_symlink_some fix ch excl lp rp rel f raw res dest rcs hex hd,
              hcur]
            rw [show create_update_symlink dest (rel ++ [f])
              (some (RNode.symlink t)) =
              if dest ≠ t then
                ([ROp.remove (rel ++ [f]), ROp.symlinkTo dest (rel ++ [f])],
                  some (RNode.symlink dest))
              else ([], some (RNode.symlink t)) from rfl,
              if_pos hdt]
    obtain ⟨ops, hnode⟩ := hmain
    refine ⟨ops, setEntry rcs f (RNode.symlink dest), hnode, ?_, ?_, ?_⟩
    · intro g hg
      exact lookup_setEntry_other rcs f g (RNode.symlink dest) hg
    · intro e he
      rcases mem_setEntry he with heq | hin
      · refine Or.inr ⟨by rw [heq], ?_⟩
        rw [heq, NodeMatch]
        refine ⟨rfl, ?_⟩
        intro cs2 hc
        exact absurd (show RNode.symlink dest = RNode.dir cs2 from hc)
          (fun h => RNode.noConfusion h)
      · exact Or.inl hin
    · rw [CSyncedEntry]
      intro hnotex
      refine ⟨?_, ?_, ?_⟩
      · intro m lcs2 hl
        exact absurd (show LNode.symlink raw res = LNode.dir m lcs2 from hl)
          (fun h => LNode.noConfusion h)
      · intro m s t hl
        exact absurd (show LNode.symlink raw res = LNode.reg m s t from hl)
          (fun h => LNode.noConfusion h)
      · intro raw2 res2 d hl hd2
        have hl2 : LNode.symlink raw res = LNode.symlink raw2 res2 := hl
        obtain ⟨hr1, hr2⟩ := LNode.symlink.inj hl2
        rw [← hr1, ← hr2] at hd2
        rw [hd] at hd2
        rw [← Option.some.inj hd2]
        exact lookup_setEntry_self rcs f (RNode.symlink dest)
  · -- regular file, remote file present, upload needed
    intro rel f rcs hex meta size mtime rs rm hlk hneed hwf hlp
    have hnode := ncu_reg_found fix ch excl lp rp rel f meta size mtime rcs
      rs rm hex hlk
    rw [if_pos hneed] at hnode
    refine ⟨_, _, hnode, ?_, ?_, ?_⟩
    · intro g hg
      exact lookup_setEntry_other rcs f g (RNode.reg size mtime.toInt) hg
    · intro e he
      rcases mem_setEntry he with heq | hin
      · refine Or.inr ⟨by rw [heq], ?_⟩
        rw [heq, NodeMatch]
        refine ⟨rfl, ?_⟩
        intro cs2 hc
        exact absurd (show RNode.reg size mtime.toInt = RNode.dir cs2 from hc)
          (fun h => RNode.noConfusion h)
      · exact Or.inl hin
    · rw [CSyncedEntry]
      intro hnotex
      refine ⟨?_, ?_, ?_⟩
      · intro m lcs2 hl
        exact absurd (show LNode.reg meta size mtime = LNode.dir m lcs2 from hl)
          (fun h => LNode.noConfusion h)
      · intro m s t hl
        have hl2 : LNode.reg meta size mtime = LNode.reg m s t := hl
        obtain ⟨h1, h2, h3⟩ := LNode.reg.inj hl2
        rw [← h2, ← h3]
        exact lookup_setEntry_self rcs f (RNode.reg size mtime.toInt)
      · intro raw res d hl hd
        exact absurd (show LNode.reg meta size mtime = LNode.symlink raw res from hl)
          (fun h => LNode.noConfusion h)
  · -- regular file, remote file present, no upload needed
    intro rel f rcs hex meta size mtime rs rm hlk hneed hwf hlp
    have hnode := ncu_reg_found fix ch excl lp rp rel f meta size mtime rcs
      rs rm hex hlk
    rw [if_neg hneed] at hnode
    have heqv : rs = size ∧ rm = Mtime.toInt mtime := by
      by_cases h1 : size = rs
      · by_cases h2 : Mtime.toInt mtime = rm
        · exact ⟨h1.symm, h2.symm⟩
        · exact absurd ((file_need_upload_iff size mtime rs rm).2 (Or.inr h2))
            hneed
      · exact absurd ((file_need_upload_iff size mtime rs rm).2 (Or.inl h1))
          hneed
    refine ⟨[], rcs, hnode, fun g _ => rfl, fun e he => Or.inl he, ?_⟩
    rw [CSyncedEntry]
    intro hnotex
    refine ⟨?_, ?_, ?_⟩
    · intro m lcs2 hl
      exact absurd (show LNode.reg meta size mtime = LNode.dir m lcs2 from hl)
        (fun h => LNode.noConfusion h)
    · intro m s t hl
      have hl2 : LNode.reg meta size mtime = LNode.reg m s t := hl
      obtain ⟨h1, h2, h3⟩ := LNode.reg.inj hl2
      rw [← h2, ← h3, ← heqv.1, ← heqv.2]
      exact hlk
    · intro raw res d hl hd
      exact absurd (show LNode.reg meta size mtime = LNode.symlink raw res from hl)
        (fun h => LNode.noConfusion h)
  · -- regular file, remote non-file present (impossible under NodeMatch)
    intro rel f rcs hex meta size mtime v hnr hlk hwf hlp
    have hnm := hlp v hlk
    rw [NodeMatch] at hnm
    have hft := hnm.1
    cases v with
    | dir cs => exact absurd hft (fun h => FType.noConfusion h)
    | symlink t => exact absurd hft (fun h => FType.noConfusion h)
    | reg s m => exact absurd rfl (fun h => hnr s m h)
    | other k =>
      exact absurd hft (by cases k <;> exact fun h => FType.noConfusion h)
  · -- regular file, no remote node
    intro rel f rcs hex meta size mtime hlk hwf hlp
    have hnode := ncu_reg_absent fix ch excl lp rp rel f meta size mtime rcs
      hex hlk
    refine ⟨_, _, hnode, ?_, ?_, ?_⟩
    · intro g hg
      exact lookup_setEntry_other rcs f g (RNode.reg size mtime.toInt) hg
    · intro e he
      rcases mem_setEntry he with heq | hin
      · refine Or.inr ⟨by rw [heq], ?_⟩
        rw [heq, NodeMatch]
        refine ⟨rfl, ?_⟩
        intro cs2 hc
        exact absurd (show RNode.reg size mtime.toInt = RNode.dir cs2 from hc)
          (fun h => RNode.noConfusion h)
      · exact Or.inl hin
    · rw [CSyncedEntry]
      intro hnotex
      refine ⟨?_, ?_, ?_⟩
      · intro m lcs2 hl
        exact absurd (show LNode.reg meta size mtime = LNode.dir m lcs2 from hl)
          (fun h => LNode.noConfusion h)
      · intro m s t hl
        have hl2 : LNode.reg meta size mtime = LNode.reg m s t := hl
        obtain ⟨h1, h2, h3⟩ := LNode.reg.inj hl2
        rw [← h2, ← h3]
        exact lookup_setEntry_self rcs f (RNode.reg size mtime.toInt)
      · intro raw res d hl hd
        exact absurd (show LNode.reg meta size mtime = LNode.symlink raw res from hl)
          (fun h => LNode.noConfusion h)
  · -- other node kind
    intro rel f rcs hex k hwf hlp
    refine ⟨[], rcs, ncu_other fix ch excl lp rp rel f k rcs hex,
      fun g _ => rfl, fun e he => Or.inl he, ?_⟩
    rw [CSyncedEntry]
    intro hnotex
    refine ⟨?_, ?_, ?_⟩
    · intro m lcs2 hl
      exact absurd (show LNode.other k = LNode.dir m lcs2 from hl)
        (fun h => LNode.noConfusion h)
    · intro m s t hl
      exact absurd (show LNode.other k = LNode.reg m s t from hl)
        (fun h => LNode.noConfusion h)
    · intro raw res d hl hd
      exact absurd (show LNode.other k = LNode.symlink raw res from hl)
        (fun h => LNode.noConfusion h)
  · -- empty local listing
    intro rel rcs hwf hlp
    refine ⟨[], rcs, cuc_nil fix ch excl lp rp rel rcs,
      fun g _ => rfl, fun e he => Or.inl he, ?_⟩
    rw [CSynced]
    intro e he
    exact absurd he (List.not_mem_nil e)
  · -- cons, node succeeds, tail succeeds
    intro rel rcs f l rest ops1 rcs3 h1 ops2 rcs31 h2 ih1 ih2 hwf hlp
    rcases Bool.and_eq_true .. ▸ hwf with ⟨hnd, hwc⟩
    rw [LNode.wfChildren] at hwc
    rcases Bool.and_eq_true .. ▸ hwc with ⟨hwl, hwrest⟩
    have hndrest : nodupKeys rest = true := by
      rw [nodupKeys] at hnd
      exact (Bool.and_eq_true .. ▸ hnd).2
    obtain ⟨ops1x, rcs1x, hok1, hloc1, hmem1, hcse1⟩ :=
      ih1 hwl (fun c hc => hlp (f, l) (List.mem_cons_self _ _) c hc)
    rw [h1] at hok1
    obtain ⟨hops1, hrcs1⟩ := Prod.mk.injEq .. ▸ Except.ok.inj hok1
    rw [← hrcs1] at hloc1 hmem1 hcse1
    have hlprest : ∀ e ∈ rest, ∀ c, lookupName rcs3 e.1 = some c →
        NodeMatch e.2 c := by
      intro e he c hc
      have hne : e.1 ≠ f := nodup_head_ne hnd e he
      rw [hloc1 e.1 hne] at hc
      exact hlp e (List.mem_cons_of_mem _ he) c hc
    obtain ⟨ops2x, rcs2x, hok2, hloc2, hmem2, hcs2⟩ :=
      ih2 (by rw [hndrest, hwrest]; rfl) hlprest
    rw [h2] at hok2
    obtain ⟨hops2, hrcs2⟩ := Prod.mk.injEq .. ▸ Except.ok.inj hok2
    rw [← hrcs2] at hloc2 hmem2 hcs2
    refine ⟨ops1 ++ ops2, rcs31,
      cuc_cons_ok fix ch excl lp rp rel f l rest rcs ops1 rcs3 h1
        ops2 rcs31 h2, ?_, ?_, ?_⟩
    · intro g hg
      have hgf : g ≠ f := by
        intro hgf
        exact hg l (by rw [hgf]; exact List.mem_cons_self _ _)
      have hgrest : ∀ l2, (g, l2) ∉ rest := by
        intro l2 hmem
        exact hg l2 (List.mem_cons_of_mem _ hmem)
      calc lookupName rcs31 g = lookupName rcs3 g := hloc2 g hgrest
        _ = lookupName rcs g := hloc1 g hgf
    · intro e he
      rcases hmem2 e he with hin | ⟨l2, hmem, hnm⟩
      · rcases hmem1 e hin with hin2 | ⟨hef, hnm⟩
        · exact Or.inl hin2
        · exact Or.inr ⟨l, by rw [hef]; exact List.mem_cons_self _ _, hnm⟩
      · exact Or.inr ⟨l2, List.mem_cons_of_mem _ hmem, hnm⟩
    · rw [CSynced]
      intro e he
      rcases List.mem_cons.1 he with heq | hrest2
      · subst heq
        refine csynced_entry_transport ?_ hcse1
        have hnotin : ∀ l2, (((f, l) : String × LNode).1, l2) ∉ rest := by
          intro l2 hmem
          exact (nodup_head_ne hnd (f, l2) hmem) rfl
        exact hloc2 (f, l).1 hnotin
      · rw [CSynced] at hcs2
        exact hcs2 e hrest2
  · -- cons, node succeeds, tail fails (impossible)
    intro rel rcs f l rest ops1 rcs3 h1 e h2 ih1 ih2 hwf hlp
    rcases Bool.and_eq_true .. ▸ hwf with ⟨hnd, hwc⟩
    rw [LNode.wfChildren] at hwc
    rcases Bool.and_eq_true .. ▸ hwc with ⟨hwl, hwrest⟩
    have hndrest : nodupKeys rest = true := by
      rw [nodupKeys] at hnd
      exact (Bool.and_eq_true .. ▸ hnd).2
    obtain ⟨ops1x, rcs1x, hok1, hloc1, hmem1, hcse1⟩ :=
      ih1 hwl (fun c hc => hlp (f, l) (List.mem_cons_self _ _) c hc)
    rw [h1] at hok1
    obtain ⟨hops1, hrcs1⟩ := Prod.mk.injEq .. ▸ Except.ok.inj hok1
    rw [← hrcs1] at hloc1
    have hlprest : ∀ e2 ∈ rest, ∀ c, lookupName rcs3 e2.1 = some c →
        NodeMatch e2.2 c := by
      intro e2 he c hc
      have hne : e2.1 ≠ f := nodup_head_ne hnd e2 he
      rw [hloc1 e2.1 hne] at hc
      exact hlp e2 (List.mem_cons_of_mem _ he) c hc
    obtain ⟨ops2x, rcs2x, hok2, _, _, _⟩ :=
      ih2 (by rw [hndrest, hwrest]; rfl) hlprest
    rw [h2] at hok2
    exact absurd hok2 (fun h => Except.noConfusion h)
  · -- cons, node fails (impossible)
    intro rel rcs f l rest e h1 ih1 hwf hlp
    rcases Bool.and_eq_true .. ▸ hwf with ⟨hnd, hwc⟩
    rw [LNode.wfChildren] at hwc
    rcases Bool.and_eq_true .. ▸ hwc with ⟨hwl, hwrest⟩
    obtain ⟨ops1x, rcs1x, hok1, _, _, _⟩ :=
      ih1 hwl (fun c hc => hlp (f, l) (List.mem_cons_self _ _) c hc)
    rw [h1] at hok1
    exact absurd hok1 (fun h => Except.noConfusion h)

theorem creation_noop (fix ch : Bool) (excl : List String) (lp rp : String) :
    (∀ (rel : List String) (f : String) (l : LNode)
      (rcs : List (String × RNode)),
      LNode.wfB l = true →
      CSyncedEntry fix excl lp rp rel (f, l) rcs →
      ∃ ops rcs2,
        node_check_for_upload_create fix ch excl lp rp rel f l rcs =
          Except.ok (ops, rcs2) ∧
        ops.filter ROp.isChange = [] ∧
        (∀ g, g ≠ f → lookupName rcs2 g = lookupName rcs g)) ∧
    (∀ (rel : List String) (lcs2 : List (String × LNode))
      (rcs : List (String × RNode)),
      (nodupKeys lcs2 && LNode.wfChildren lcs2) = true →
      CSynced fix excl lp rp rel lcs2 rcs →
      ∃ ops rcs2,
        check_for_upload_create fix ch excl lp rp rel lcs2 rcs =
          Except.ok (ops, rcs2) ∧
        ops.filter ROp.isChange = []) := by
  refine node_check_for_upload_create.mutual_induct fix ch excl lp rp
    (fun rel f l rcs =>
      LNode.wfB l = true →
      CSyncedEntry fix excl lp rp rel (f, l) rcs →
      ∃ ops rcs2,
        node_check_for_upload_create fix ch excl lp rp rel f l rcs =
          Except.ok (ops, rcs2) ∧
        ops.filter ROp.isChange = [] ∧
        (∀ g, g ≠ f → lookupName rcs2 g = lookupName rcs g))
    (fun rel lcs2 rcs =>
      (nodupKeys lcs2 && LNode.wfChildren lcs2) = true →
      CSynced fix excl lp rp rel lcs2 rcs →
      ∃ ops rcs2,
        check_for_upload_create fix ch excl lp rp rel lcs2 rcs =
          Except.ok (ops, rcs2) ∧
        ops.filter ROp.isChange = [])
    ?_ ?_ ?_ ?_ ?_ ?_ ?_ ?_ ?_ ?_ ?_ ?_ ?_ ?_ ?_ ?_ ?_
  · -- excluded
    intro l rel f rcs hex hwf hcse
    exact ⟨[], rcs, ncu_excluded fix ch excl lp rp rel f l rcs hex, rfl,
      fun g _ => rfl⟩
  · -- directory, remote directory present, recursion succeeds
    intro rel f rcs hex meta children rcs2In hlk ops1 rcs3 hok ih hwf hcse
    rw [LNode.wfB] at hwf
    rcases Bool.and_eq_true .. ▸ hwf with ⟨hnd, hwc⟩
    rw [CSyncedEntry] at hcse
    obtain ⟨hdir, hreg, hsym⟩ := hcse hex
    obtain ⟨cs2, hlk2, hcs⟩ := hdir meta children rfl
    rw [hlk] at hlk2
    rw [← RNode.dir.inj (Option.some.inj hlk2)] at hcs
    obtain ⟨ops2x, rcs2x, hok2, hfil2⟩ := ih (by rw [hnd, hwc]; rfl) hcs
    refine ⟨_, _,
      ncu_dir_found fix ch excl lp rp rel f meta children rcs rcs2In hex hlk
        ops2x rcs2x hok2, ?_, ?_⟩
    · rw [List.filter_append, match_modes_filter, hfil2]
      rfl
    · intro g hg
      exact lookup_setEntry_other rcs f g (RNode.dir rcs2x) hg
  · -- directory, remote directory present, recursion fails (impossible)
    intro rel f rcs hex meta children rcs2In hlk e herr ih hwf hcse
    rw [LNode.wfB] at hwf
    rcases Bool.and_eq_true .. ▸ hwf with ⟨hnd, hwc⟩
    rw [CSyncedEntry] at hcse
    obtain ⟨hdir, hreg, hsym⟩ := hcse hex
    obtain ⟨cs2, hlk2, hcs⟩ := hdir meta children rfl
    rw [hlk] at hlk2
    rw [← RNode.dir.inj (Option.some.inj hlk2)] at hcs
    obtain ⟨ops2x, rcs2x, hok2, hfil2⟩ := ih (by rw [hnd, hwc]; rfl) hcs
    rw [herr] at hok2
    exact absurd hok2 (fun h => Except.noConfusion h)
  · -- directory against a remote non-directory (impossible when synced)
    intro rel f rcs hex meta children v hnd hlk hwf hcse
    rw [CSyncedEntry] at hcse
    obtain ⟨hdir, hreg, hsym⟩ := hcse hex
    obtain ⟨cs2, hlk2, hcs⟩ := hdir meta children rfl
    rw [hlk] at hlk2
    exact absurd (Option.some.inj hlk2) (hnd cs2)
  · -- directory with no remote node (impossible when synced)
    intro rel f rcs hex meta children hlk ops1 rcs3 hok ih hwf hcse
    rw [CSyncedEntry] at hcse
    obtain ⟨hdir, hreg, hsym⟩ := hcse hex
    obtain ⟨cs2, hlk2, hcs⟩ := hdir meta children rfl
    rw [hlk] at hlk2
    exact absurd hlk2 (fun h => Option.noConfusion h)
  · -- directory with no remote node, recursion fails (impossible when synced)
    intro rel f rcs hex meta children hlk e herr ih hwf hcse
    rw [CSyncedEntry] at hcse
    obtain ⟨hdir, hreg, hsym⟩ := hcse hex
    obtain ⟨cs2, hlk2, hcs⟩ := hdir meta children rfl
    rw [hlk] at hlk2
    exact absurd hlk2 (fun h => Option.noConfusion h)
  · -- symlink with no destination
    intro rel f rcs hex raw res hd hwf hcse
    exact ⟨[], rcs, ncu_symlink_none fix ch excl lp rp rel f raw res rcs hex hd,
      rfl, fun g _ => rfl⟩
  · -- symlink with a destination
    intro rel f rcs hex raw res dest hd hwf hcse
    rw [CSyncedEntry] at hcse
    obtain ⟨hdir, hreg, hsym⟩ := hcse hex
    have hlk : lookupName rcs f = some (RNode.symlink dest) := hsym raw res dest rfl hd
    refine ⟨[], setEntry rcs f (RNode.symlink dest), ?_, rfl, ?_⟩
    · rw [ncu_symlink_some fix ch excl lp rp rel f raw res dest rcs hex hd, hlk]
      rw [show create_update_symlink dest (rel ++ [f]) (some (RNode.symlink dest)) =
        if dest ≠ dest then
          ([ROp.remove (rel ++ [f]), ROp.symlinkTo dest (rel ++ [f])],
            some (RNode.symlink dest))
        else ([], some (RNode.symlink dest)) from rfl,
        if_neg (fun h => h rfl)]
    · intro g hg
      exact lookup_setEntry_other rcs f g (RNode.symlink dest) hg
  · -- regular file, remote file present, upload needed (impossible when synced)
    intro rel f rcs hex meta size mtime rs rm hlk hneed hwf hcse
    rw [CSyncedEntry] at hcse
    obtain ⟨hdir, hreg, hsym⟩ := hcse hex
    have hlk2 := hreg meta size mtime rfl
    rw [hlk] at hlk2
    obtain ⟨h1, h2⟩ := RNode.reg.inj (Option.some.inj hlk2)
    rw [h1, h2] at hneed
    rw [file_need_upload_refl size mtime] at hneed
    exact absurd hneed (fun h => Bool.noConfusion h)
  · -- regular file, remote file present, no upload needed
    intro rel f rcs hex meta size mtime rs rm hlk hneed hwf hcse
    have hnode := ncu_reg_found fix ch excl lp rp rel f meta size mtime rcs
      rs rm hex hlk
    rw [if_neg hneed] at hnode
    exact ⟨[], rcs, hnode, rfl, fun g _ => rfl⟩
  · -- regular file against a remote non-file (impossible when synced)
    intro rel f rcs hex meta size mtime v hnr hlk hwf hcse
    rw [CSyncedEntry] at hcse
    obtain ⟨hdir, hreg, hsym⟩ := hcse hex
    have hlk2 := hreg meta size mtime rfl
    rw [hlk] at hlk2
    exact absurd (Option.some.inj hlk2) (hnr size (Mtime.toInt mtime))
  · -- regular file with no remote node (impossible when synced)
    intro rel f rcs hex meta size mtime hlk hwf hcse
    rw [CSyncedEntry] at hcse
    obtain ⟨hdir, hreg, hsym⟩ := hcse hex
    have hlk2 := hreg meta size mtime rfl
    rw [hlk] at hlk2
    exact absurd hlk2 (fun h => Option.noConfusion h)
  · -- other node kind
    intro rel f rcs hex k hwf hcse
    exact ⟨[], rcs, ncu_other fix ch excl lp rp rel f k rcs hex, rfl,
      fun g _ => rfl⟩
  · -- empty local listing
    intro rel rcs hwf hcs
    exact ⟨[], rcs, cuc_nil fix ch excl lp rp rel rcs, rfl⟩
  · -- cons, node succeeds, tail succeeds
    intro rel rcs f l rest ops1 rcs3 h1 ops2 rcs31 h2 ih1 ih2 hwf hcs
    rcases Bool.and_eq_true .. ▸ hwf with ⟨hnd, hwc⟩
    rw [LNode.wfChildren] at hwc
    rcases Bool.and_eq_true .. ▸ hwc with ⟨hwl, hwrest⟩
    have hndrest : nodupKeys rest = true := by
      rw [nodupKeys] at hnd
      exact (Bool.and_eq_true .. ▸ hnd).2
    rw [CSynced] at hcs
    obtain ⟨ops1x, rcs1x, hok1, hfil1, hloc1⟩ :=
      ih1 hwl (hcs (f, l) (List.mem_cons_self _ _))
    rw [h1] at hok1
    obtain ⟨hops1, hrcs1⟩ := Prod.mk.injEq .. ▸ Except.ok.inj hok1
    rw [← hops1] at hfil1
    rw [← hrcs1] at hloc1
    have hcsrest : CSynced fix excl lp rp rel rest rcs3 := by
      rw [CSynced]
      intro e he
      refine csynced_entry_transport ?_ (hcs e (List.mem_cons_of_mem _ he))
      exact hloc1 e.1 (nodup_head_ne hnd e he)
    obtain ⟨ops2x, rcs2x, hok2, hfil2⟩ :=
      ih2 (by rw [hndrest, hwrest]; rfl) hcsrest
    rw [h2] at hok2
    obtain ⟨hops2, hrcs2⟩ := Prod.mk.injEq .. ▸ Except.ok.inj hok2
    rw [← hops2] at hfil2
    refine ⟨ops1 ++ ops2, rcs31,
      cuc_cons_ok fix ch excl lp rp rel f l rest rcs ops1 rcs3 h1
        ops2 rcs31 h2, ?_⟩
    rw [List.filter_append, hfil1, hfil2]
    rfl
  · -- cons, node succeeds, tail fails (impossible when synced)
    intro rel rcs f l rest ops1 rcs3 h1 e h2 ih1 ih2 hwf hcs
    rcases Bool.and_eq_true .. ▸ hwf with ⟨hnd, hwc⟩
    rw [LNode.wfChildren] at hwc
    rcases Bool.and_eq_true .. ▸ hwc with ⟨hwl, hwrest⟩
    have hndrest : nodupKeys rest = true := by
      rw [nodupKeys] at hnd
      exact (Bool.and_eq_true .. ▸ hnd).2
    rw [CSynced] at hcs
    obtain ⟨ops1x, rcs1x, hok1, hfil1, hloc1⟩ :=
      ih1 hwl (hcs (f, l) (List.mem_cons_self _ _))
    rw [h1] at hok1
    obtain ⟨hops1, hrcs1⟩ := Prod.mk.injEq .. ▸ Except.ok.inj hok1
    rw [← hrcs1] at hloc1
    have hcsrest : CSynced fix excl lp rp rel rest rcs3 := by
      rw [CSynced]
      intro e2 he
      refine csynced_entry_transport ?_ (hcs e2 (List.mem_cons_of_mem _ he))
      exact hloc1 e2.1 (nodup_head_ne hnd e2 he)
    obtain ⟨ops2x, rcs2x, hok2, hfil2⟩ :=
      ih2 (by rw [hndrest, hwrest]; rfl) hcsrest
    rw [h2] at hok2
    exact absurd hok2 (fun h => Except.noConfusion h)
  · -- cons, node fails (impossible when synced)
    intro rel rcs f l rest e h1 ih1 hwf hcs
    rcases Bool.and_eq_true .. ▸ hwf with ⟨hnd, hwc⟩
    rw [LNode.wfChildren] at hwc
    rcases Bool.and_eq_true .. ▸ hwc with ⟨hwl, hwrest⟩
    rw [CSynced] at hcs
    obtain ⟨ops1x, rcs1x, hok1, hfil1, hloc1⟩ :=
      ih1 hwl (hcs (f, l) (List.mem_cons_self _ _))
    rw [h1] at hok1
    exact absurd hok1 (fun h => Except.noConfusion h)

/-! Claim C9: idempotence of a full run. -/

/-- C9: running the engine twice in succession with no local changes
between the runs performs zero uploads, zero directory or symlink
creations, and zero deletions during the second run: when the first run
succeeds and yields the remote tree rcs1, a second run over rcs1 succeeds
and its operation trace contains no change operation at all (only the
unconditional chmod/utime/chown mode-matching calls remain).  The
well-formedness hypothesis states that every directory listing of the
local tree has pairwise distinct entry names, which os.walk guarantees
for any tree read from a filesystem. -/
theorem claim_C9 (fix ch : Bool) (excl : List String) (lp rp : String)
    (lcs : List (String × LNode)) (listing : Option (List (String × RNode)))
    (ops1 : List ROp) (rcs1 : List (String × RNode))
    (hwf : (nodupKeys lcs && LNode.wfChildren lcs) = true)
    (h1 : run fix ch excl lp rp lcs listing = Except.ok (ops1, rcs1)) :
    ∃ ops2 rcs2, run fix ch excl lp rp lcs (some rcs1) = Except.ok (ops2, rcs2) ∧
      ops2.filter ROp.isChange = [] := by
  rcases Bool.and_eq_true .. ▸ hwf with ⟨hnd, hwc⟩
  cases listing with
  | none =>
    rw [run_root_missing] at h1
    exact absurd h1 (fun h => Except.noConfusion h)
  | some rcs =>
    have hmatch : MatchesR lcs (check_for_deletion lcs [] rcs).2 :=
      (deletion_matches lcs).1 [] rcs lcs rfl
    obtain ⟨cops, rcs2x, hok2, hloc2, hmem2, hcs2⟩ :=
      (creation_sound fix ch excl lp rp).2 [] lcs
        (check_for_deletion lcs [] rcs).2 hwf (matchesR_LP hnd hmatch)
    rw [run_ok fix ch excl lp rp lcs rcs cops rcs2x hok2] at h1
    obtain ⟨hops1, hrcs1⟩ := Prod.mk.injEq .. ▸ Except.ok.inj h1
    have hmatch2 : MatchesR lcs rcs1 := by
      rw [← hrcs1]
      exact matchesR_assemble hnd hmatch hmem2
    have hcs1 : CSynced fix excl lp rp [] lcs rcs1 := by
      rw [← hrcs1]
      exact hcs2
    have hdel2 : check_for_deletion lcs [] rcs1 = ([], rcs1) :=
      (deletion_noop lcs).1 [] rcs1 lcs rfl hmatch2
    obtain ⟨ops2, rcs2y, hok3, hfil⟩ :=
      (creation_noop fix ch excl lp rp).2 [] lcs rcs1 hwf hcs1
    refine ⟨ops2, rcs2y, ?_, hfil⟩
    have hok4 : check_for_upload_create fix ch excl lp rp [] lcs
        (check_for_deletion lcs [] rcs1).2 = Except.ok (ops2, rcs2y) := by
      rw [hdel2]
      exact hok3
    rw [run_ok fix ch excl lp rp lcs rcs1 ops2 rcs2y hok4, hdel2]
    rfl

theorem claim_C9_witness :
    (nodupKeys [(("a"), LNode.reg ⟨420, 0, 0⟩ 5 ⟨100, 7⟩)] &&
      LNode.wfChildren [(("a"), LNode.reg ⟨420, 0, 0⟩ 5 ⟨100, 7⟩)]) = true ∧
    ∃ ops2 rcs2,
      run false false [] ("l") ("r")
        [(("a"), LNode.reg ⟨420, 0, 0⟩ 5 ⟨100, 7⟩)]
        (some [(("a"), RNode.reg 5 100)]) = Except.ok (ops2, rcs2) ∧
      ops2.filter ROp.isChange = [] :=
  ⟨by decide,
    claim_C9 false false [] ("l") ("r")
      [(("a"), LNode.reg ⟨420, 0, 0⟩ 5 ⟨100, 7⟩)]
      (some [(("a"), RNode.reg 5 100)])
      [] [(("a"), RNode.reg 5 100)] (by decide) rfl⟩
